import Mathlib

set_option linter.unusedVariables false

/-!
Shallow embedding of the double-entry association graph of
`src/sketch/utils/structures/Graph.ts` and its consumer
`src/sketch/core/packageManager.ts`.

JS object identity is modelled by indices: every `TwoWayNode` ever created
lives in the graph's `nodes` arena and is referenced by its index; every
`OneWayNode` lives in the `top` or `bottom` record under a key that is never
overwritten (`validateKey` refuses re-declaration), so it is referenced by
`(level, key)`.
-/

namespace ModP5

/-- The two key namespaces (`type Level = "top" | "bottom"` in Graph.ts). -/
inductive Level
  | top
  | bottom
deriving DecidableEq

/-- `OneWayNode<T>`: one key's adjacency list.  Its `to` array (a Lean keyword,
renamed `toNodes`) holds references to `TwoWayNode`s, here arena indices. -/
structure OneWayNode where
  toNodes : List Nat
deriving DecidableEq

/-- `TwoWayNode<T>`: one element node.  `top`/`bottom` hold the back-references
to the `OneWayNode`s wired to this node, identified by their record key. -/
structure TwoWayNode (T : Type) where
  element : T
  top : List String
  bottom : List String
  next : Option Nat
  prev : Option Nat
deriving DecidableEq

/-- The JS `Record<string, OneWayNode>` as an association list. -/
abbrev KeyRecord := List (String × OneWayNode)

/-- The double entry graph (`class Graph<T>` in Graph.ts). -/
structure Graph (T : Type) where
  top : KeyRecord
  bottom : KeyRecord
  head : Option Nat
  tail : Option Nat
  /-- arena of every `TwoWayNode` ever created; index = JS object identity -/
  nodes : List (TwoWayNode T)
deriving DecidableEq

/-- Record lookup, `obj[key]` on a JS record. -/
def lookupKey (k : String) : KeyRecord → Option OneWayNode
  | [] => none
  | (k2, v) :: r => if k2 = k then some v else lookupKey k r

/-- Record write, `obj[key] = v`: replaces the first binding of `key`,
or appends a fresh binding. -/
def recordSet : KeyRecord → String → OneWayNode → KeyRecord
  | [], k, v => [(k, v)]
  | (k2, v2) :: r, k, v =>
      if k2 = k then (k, v) :: r else (k2, v2) :: recordSet r k v

/-- Mutation of one arena slot: update the `i`-th entry of a list in place. -/
def listModify {α : Type} : List α → Nat → (α → α) → List α
  | [], _, _ => []
  | a :: l, 0, f => f a :: l
  | a :: l, n + 1, f => a :: listModify l n f

/-- `this[level]`. -/
def record {T : Type} (g : Graph T) : Level → KeyRecord
  | .top => g.top
  | .bottom => g.bottom

/-- Assign `this[level] = r`. -/
def setRecord {T : Type} (g : Graph T) : Level → KeyRecord → Graph T
  | .top, r => { g with top := r }
  | .bottom, r => { g with bottom := r }

/-- `node[level]`, the back-references of a `TwoWayNode` for one namespace. -/
def nodeKeys {T : Type} (nd : TwoWayNode T) : Level → List String
  | .top => nd.top
  | .bottom => nd.bottom

/-- `TwoWayNode.add(end, node)`: push a `OneWayNode` reference on one side. -/
def addKeyRef {T : Type} (nd : TwoWayNode T) : Level → String → TwoWayNode T
  | .top, key => { nd with top := nd.top ++ [key] }
  | .bottom, key => { nd with bottom := nd.bottom ++ [key] }

/-- The opposite namespace (`level=="top"?"bottom":"top"`). -/
def otherLevel : Level → Level
  | .top => .bottom
  | .bottom => .top

variable {T : Type}

/-- `new Graph()`. -/
def emptyGraph : Graph T := ⟨[], [], none, none, []⟩

/-- `validateKey`: true when `key` is absent (the warning branch only logs,
so the `suppressWarn` flag has no effect on state and is dropped). -/
def validateKey (g : Graph T) (level : Level) (key : String) : Bool :=
  (lookupKey key (record g level)).isNone

/-- `validateElement`: true when `key` is present (again the warning flag has
no state effect and is dropped). -/
def validateElement (g : Graph T) (level : Level) (key : String) : Bool :=
  (lookupKey key (record g level)).isSome

/-- `Graph.addTop`. -/
def addTop (g : Graph T) (key : String) : Graph T :=
  if validateKey g .top key then setRecord g .top (recordSet g.top key ⟨[]⟩)
  else g

/-- `Graph.addBottom`. -/
def addBottom (g : Graph T) (key : String) : Graph T :=
  if validateKey g .bottom key then
    setRecord g .bottom (recordSet g.bottom key ⟨[]⟩)
  else g

/-- `` this[`add${capitalize(level)}`](key) `` dispatch in `addElementToGraph`. -/
def addLevelKey (g : Graph T) : Level → String → Graph T
  | .top, key => addTop g key
  | .bottom, key => addBottom g key

/-- `this.tail.element === obj` guard inside `find`.  When `tail` is null the
JS would throw, but `find` only evaluates this after following a non-null
`next`, which in every state the class can build implies a non-null tail. -/
def tailMatches [DecidableEq T] (g : Graph T) (obj : T) : Bool :=
  match g.tail with
  | some t =>
      match g.nodes.get? t with
      | some nd => decide (nd.element = obj)
      | none => false
  | none => false

/-- `Graph.find(obj, next)`: recursive scan of the insertion chain.  The
recursion is on the `next` pointers, so the embedding spends one unit of fuel
per step; `none` means the fuel ran out, which never happens for the fuel
`find` supplies on an acyclic chain (see `findAux_complete`/`findAux_none`). -/
def findAux [DecidableEq T] (g : Graph T) (obj : T) :
    Option Nat → Nat → Option (Option Nat)
  | _, 0 => none
  | none, _ + 1 => some none
  | some i, fuel + 1 =>
    match g.nodes.get? i with
    | none => some none
    | some nd =>
      if nd.element = obj then some (some i)
      else if tailMatches g obj then some g.tail
      else findAux g obj nd.next fuel

/-- `Graph.find(obj)` with default argument `next = this.head`.  Fuel
`nodes.length + 1` covers a full walk of any acyclic chain. -/
def find [DecidableEq T] (g : Graph T) (obj : T) : Option (Option Nat) :=
  findAux g obj g.head (g.nodes.length + 1)

/-- `find` collapsed to its JS result (`null` and fuel exhaustion both give
`none`; the latter never occurs on graphs built by the class, which have
acyclic chains). -/
def findD [DecidableEq T] (g : Graph T) (obj : T) : Option Nat :=
  (find g obj).getD none

/-- The node set-up block of `addElementToGraph`'s forEach body:
`let node = this.find(element); if (!node) { ... chain a fresh node ... }`.
Returns the updated graph and the (index of the) node for `e`. -/
def findOrCreate [DecidableEq T] (g : Graph T) (e : T) : Graph T × Nat :=
  match findD g e with
  | some i => (g, i)
  | none =>
    let i := g.nodes.length
    let nodes1 := g.nodes ++ [⟨e, [], [], none, g.tail⟩]
    let nodes2 :=
      match g.tail with
      | some t => listModify nodes1 t (fun nd => { nd with next := some i })
      | none => nodes1
    ({ g with
        nodes := nodes2
        head := match g.head with | none => some i | some h => some h
        tail := some i },
      i)

/-- `this[level][key].add(node)`.  The `none` branch cannot be reached from
`addElementToGraph`, which declares the key first (in JS a missing key would
throw before any edge is recorded). -/
def pushToKey (g : Graph T) (level : Level) (key : String) (i : Nat) :
    Graph T :=
  match lookupKey key (record g level) with
  | some own => setRecord g level (recordSet (record g level) key ⟨own.toNodes ++ [i]⟩)
  | none => g

/-- `node.add(level, this[level][key])`. -/
def wireNode (g : Graph T) (level : Level) (key : String) (i : Nat) : Graph T :=
  { g with nodes := listModify g.nodes i (fun nd => addKeyRef nd level key) }

/-- One iteration of the forEach in `addElementToGraph` for a single element.
The key has always been declared by the line above the forEach; on a missing
key the JS would throw before mutating anything, modelled as leaving `g`. -/
def addOneElement [DecidableEq T] (g : Graph T) (level : Level) (key : String)
    (e : T) : Graph T :=
  match lookupKey key (record g level) with
  | none => g
  | some _ =>
    let gi := findOrCreate g e
    wireNode (pushToKey gi.1 level key gi.2) level key gi.2

/-- `Graph.addElementToGraph(level, key, element)`; `forceArray` is modelled by
taking the element list directly. -/
def addElementToGraph [DecidableEq T] (g : Graph T) (level : Level)
    (key : String) (elements : List T) : Graph T :=
  let g0 := if validateElement g level key then g else addLevelKey g level key
  elements.foldl (fun acc e => addOneElement acc level key e) g0

/-- `Graph.addElementTop`. -/
def addElementTop [DecidableEq T] (g : Graph T) (key : String)
    (elements : List T) : Graph T :=
  addElementToGraph g .top key elements

/-- `Graph.addElementBottom`. -/
def addElementBottom [DecidableEq T] (g : Graph T) (key : String)
    (elements : List T) : Graph T :=
  addElementToGraph g .bottom key elements

/-- `addElementOptions<T>`.  `top`/`bottom` are the key lists after
`forceArray`: an absent field is `[]`, and a falsy (empty-string) entry models
a falsy key, which the `key && ...` guard in `add` skips. -/
structure AddElementOptions (T : Type) where
  top : List String
  bottom : List String
  element : T
deriving DecidableEq

/-- `Graph.add(options)`: for each truthy top key, `addTop(key, true)` then
`addElementTop(key, element)`; then the same for bottom keys. -/
def add [DecidableEq T] (g : Graph T) (o : AddElementOptions T) : Graph T :=
  let g1 := o.top.foldl
    (fun acc k => if k = "" then acc else addElementTop (addTop acc k) k [o.element]) g
  o.bottom.foldl
    (fun acc k => if k = "" then acc else addElementBottom (addBottom acc k) k [o.element]) g1

/-- `Graph.addAll`. -/
def addAll [DecidableEq T] (g : Graph T) (os : List (AddElementOptions T)) :
    Graph T :=
  os.foldl add g

/-- `node.element` through an arena index; `none` models the JS `undefined`
of a dangling reference (never produced by the class's own operations). -/
def elem? (g : Graph T) (i : Nat) : Option T :=
  (g.nodes.get? i).map TwoWayNode.element

/-- `Graph.getTop`: `this.top[key].to.map(node => node.element)`.  The outer
`none` models the throw on an undeclared key (`this.top[key]` is undefined). -/
def getTop (g : Graph T) (key : String) : Option (List (Option T)) :=
  (lookupKey key g.top).map (fun own => own.toNodes.map (elem? g))

/-- `Graph.getBottom`. -/
def getBottom (g : Graph T) (key : String) : Option (List (Option T)) :=
  (lookupKey key g.bottom).map (fun own => own.toNodes.map (elem? g))

/-- One `{data, siblings}` entry produced by `getSiblings`. -/
structure SiblingEntry (T : Type) where
  data : Option T
  siblings : List (Option T)
deriving DecidableEq

/-- A key reference's `to` list (`prop("to")`); node key references always
resolve in graphs built by the class, since keys are never overwritten. -/
def keyTo (g : Graph T) (level : Level) (k : String) : List Nat :=
  match lookupKey k (record g level) with
  | some own => own.toNodes
  | none => []

/-- `compose(map(prop("element")), flatten, map(prop("to")))(node[otherLevel])`
for the node at arena index `i`. -/
def siblingsOfNode (g : Graph T) (level : Level) (i : Nat) : List (Option T) :=
  match g.nodes.get? i with
  | none => []
  | some nd =>
      (((nodeKeys nd (otherLevel level)).map (keyTo g (otherLevel level))).flatten).map (elem? g)

/-- `Graph.getSiblings({level, key})`; outer `none` models the throw on an
undeclared key. -/
def getSiblings (g : Graph T) (level : Level) (key : String) :
    Option (List (SiblingEntry T)) :=
  (lookupKey key (record g level)).map (fun own =>
    own.toNodes.map (fun i => ⟨elem? g i, siblingsOfNode g level i⟩))

/-- The loop of `getAll` driving the `[Symbol.iterator]` object.  Each round
mirrors the JS `next()`: read `value = next?.element`, advance
`next = next?.next`, and report `done: !!next` — note the flag is the
truthiness of the ALREADY ADVANCED pointer.  for..of stops (discarding the
round's value) when `done` is true, otherwise pushes `value` (possibly
`undefined`, here `none`) and continues.  Outer `none` = the loop did not
finish within `fuel` rounds. -/
def getAllLoop (g : Graph T) : Nat → Option Nat → List (Option T) →
    Option (List (Option T))
  | 0, _, _ => none
  | fuel + 1, cur, acc =>
    let value : Option T := cur.bind (fun i => (g.nodes.get? i).map TwoWayNode.element)
    let nxt : Option Nat := cur.bind (fun i => (g.nodes.get? i).bind TwoWayNode.next)
    if nxt.isSome then some acc
    else getAllLoop g fuel nxt (acc ++ [value])

/-- `Graph.getAll()`: run the iterator loop from `this.head`.  `fuel` bounds
the number of `next()` calls; `none` means the traversal did not terminate
within that many rounds. -/
def getAll (g : Graph T) (fuel : Nat) : Option (List (Option T)) :=
  getAllLoop g fuel g.head []

/-!  `src/sketch/core/packageManager.ts` (the "Stashed changes" side, the one
built on `Graph`). -/

/-- The `Module` interface of `core/interface/index.ts`: anything with a
`name`; `payload` stands for the rest of a concrete module, so two distinct
modules may share a name. -/
structure Module where
  name : String
  payload : Nat
deriving DecidableEq

/-- `PackageManager.add(mods)` with the freshly generated uuid passed in as
`pid`: `this.map.addElementTop(id, mods); mods.forEach(mod =>
this.map.addElementBottom(mod.name, mod))`. -/
def pmAdd (g : Graph Module) (pid : String) (mods : List Module) :
    Graph Module :=
  mods.foldl (fun acc m => addElementBottom acc m.name [m])
    (addElementTop g pid mods)

/-- `PackageManager.get(id)`: `return this.map.getTop(id)`. -/
def pmGet (g : Graph Module) (pid : String) : Option (List (Option Module)) :=
  getTop g pid

/-- `PackageManager.remove(id)`: the body is `//TODO; return this` — the graph
is returned untouched. -/
def pmRemove (g : Graph Module) (pid : String) : Graph Module :=
  g

/-!  Reachable graph states: everything a caller can build through the public
mutating operations, starting from `new Graph()`. -/

/-- One public mutating call on the graph. -/
inductive Op (T : Type)
  | addTopKey (key : String)
  | addBottomKey (key : String)
  | addElemTop (key : String) (elems : List T)
  | addElemBottom (key : String) (elems : List T)
  | addOpt (o : AddElementOptions T)

/-- Apply one public mutating call. -/
def applyOp [DecidableEq T] (g : Graph T) : Op T → Graph T
  | .addTopKey k => addTop g k
  | .addBottomKey k => addBottom g k
  | .addElemTop k es => addElementTop g k es
  | .addElemBottom k es => addElementBottom g k es
  | .addOpt o => add g o

/-- The graph after a sequence of public mutating calls on `new Graph()`. -/
def build [DecidableEq T] (ops : List (Op T)) : Graph T :=
  ops.foldl applyOp emptyGraph

/-- A graph state the class can actually reach. -/
def Reachable [DecidableEq T] (g : Graph T) : Prop :=
  ∃ ops : List (Op T), g = build ops

/-- The stored values in arena (= first-insertion) order. -/
def elems (g : Graph T) : List T := g.nodes.map TwoWayNode.element

/-- Structural invariant of every reachable graph state (proved below for all
of `Reachable`): the insertion chain is exactly the arena in order, stored
values are pairwise distinct, record keys are unique, all edges point into the
arena, and key-to-node wiring is reciprocal in both directions. -/
structure Inv (g : Graph T) : Prop where
  head_eq : g.head = if g.nodes.length = 0 then none else some 0
  tail_eq : g.tail = if g.nodes.length = 0 then none else some (g.nodes.length - 1)
  next_eq : ∀ i nd, g.nodes.get? i = some nd →
    nd.next = if i + 1 < g.nodes.length then some (i + 1) else none
  elems_nodup : (g.nodes.map TwoWayNode.element).Nodup
  keys_nodup : ∀ level, ((record g level).map Prod.fst).Nodup
  edges_lt : ∀ level k own, lookupKey k (record g level) = some own →
    ∀ i ∈ own.toNodes, i < g.nodes.length
  recip1 : ∀ level k own, lookupKey k (record g level) = some own →
    ∀ i ∈ own.toNodes, ∀ nd, g.nodes.get? i = some nd → k ∈ nodeKeys nd level
  recip2 : ∀ level i nd, g.nodes.get? i = some nd →
    ∀ k ∈ nodeKeys nd level,
      ∃ own, lookupKey k (record g level) = some own ∧ i ∈ own.toNodes

/-! ### List and record helper lemmas -/

theorem lget_some_lt {α : Type} :
    ∀ (l : List α) (i : Nat) (a : α), l.get? i = some a → i < l.length := by
  intro l
  induction l with
  | nil => intro i a h; cases i <;> simp [List.get?] at h
  | cons b l ih =>
    intro i a h
    cases i with
    | zero => simp
    | succ n =>
      simp only [List.get?] at h
      have := ih n a h
      simp only [List.length_cons]
      omega

theorem lget_of_lt {α : Type} :
    ∀ (l : List α) (i : Nat), i < l.length → ∃ a, l.get? i = some a := by
  intro l
  induction l with
  | nil => intro i h; simp at h
  | cons b l ih =>
    intro i h
    cases i with
    | zero => exact ⟨b, rfl⟩
    | succ n =>
      simp only [List.length_cons] at h
      exact ih n (by omega)

theorem lget_append_left {α : Type} :
    ∀ (l l2 : List α) (i : Nat), i < l.length → (l ++ l2).get? i = l.get? i := by
  intro l
  induction l with
  | nil => intro l2 i h; simp at h
  | cons b l ih =>
    intro l2 i h
    cases i with
    | zero => rfl
    | succ n =>
      simp only [List.length_cons] at h
      simpa using ih l2 n (by omega)

theorem lget_append_len {α : Type} :
    ∀ (l : List α) (a : α), (l ++ [a]).get? l.length = some a := by
  intro l
  induction l with
  | nil => intro a; rfl
  | cons b l ih => intro a; simpa using ih a

theorem lget_map {α β : Type} (f : α → β) :
    ∀ (l : List α) (i : Nat), (l.map f).get? i = (l.get? i).map f := by
  intro l
  induction l with
  | nil => intro i; cases i <;> rfl
  | cons b l ih => intro i; cases i with
    | zero => rfl
    | succ n => simpa using ih n

theorem mem_iff_lget {α : Type} (a : α) :
    ∀ (l : List α), a ∈ l ↔ ∃ i, l.get? i = some a := by
  intro l
  induction l with
  | nil =>
    constructor
    · intro h; simp at h
    · intro ⟨i, h⟩; cases i <;> simp [List.get?] at h
  | cons b l ih =>
    constructor
    · intro h
      rcases List.mem_cons.mp h with h1 | h2
      · exact ⟨0, by simp [h1]⟩
      · obtain ⟨i, hi⟩ := ih.mp h2
        exact ⟨i + 1, by simpa using hi⟩
    · intro ⟨i, hi⟩
      cases i with
      | zero =>
        simp only [List.get?] at hi
        exact List.mem_cons.mpr (Or.inl (by injection hi with h; exact h.symm))
      | succ n =>
        simp only [List.get?] at hi
        exact List.mem_cons.mpr (Or.inr (ih.mpr ⟨n, hi⟩))

theorem listModify_length {α : Type} :
    ∀ (l : List α) (i : Nat) (f : α → α), (listModify l i f).length = l.length := by
  intro l
  induction l with
  | nil => intro i f; rfl
  | cons b l ih =>
    intro i f
    cases i with
    | zero => rfl
    | succ n => simpa [listModify] using ih n f

theorem listModify_lget {α : Type} :
    ∀ (l : List α) (i : Nat) (f : α → α) (j : Nat),
      (listModify l i f).get? j = if i = j then (l.get? j).map f else l.get? j := by
  intro l
  induction l with
  | nil => intro i f j; cases j <;> simp [listModify, List.get?]
  | cons b l ih =>
    intro i f j
    cases i with
    | zero =>
      cases j with
      | zero => simp [listModify]
      | succ m => simp [listModify]
    | succ n =>
      cases j with
      | zero => simp [listModify]
      | succ m =>
        simp only [listModify, List.get?]
        rw [ih n f m]
        by_cases h : n = m
        · simp [h]
        · simp [h, fun hc => h (Nat.succ_injective hc)]

theorem nodup_append_singleton {α : Type} (l : List α) (a : α) :
    (l ++ [a]).Nodup ↔ l.Nodup ∧ a ∉ l := by
  simp [List.nodup_append]

theorem lookupKey_recordSet_self :
    ∀ (r : KeyRecord) (k : String) (v : OneWayNode),
      lookupKey k (recordSet r k v) = some v := by
  intro r
  induction r with
  | nil => intro k v; simp [recordSet, lookupKey]
  | cons p r ih =>
    obtain ⟨ka, va⟩ := p
    intro k v
    by_cases hp : ka = k
    · subst hp
      simp [recordSet, lookupKey]
    · simp only [recordSet, if_neg hp, lookupKey]
      exact ih k v

theorem lookupKey_recordSet_ne :
    ∀ (r : KeyRecord) (k k2 : String) (v : OneWayNode), k2 ≠ k →
      lookupKey k2 (recordSet r k v) = lookupKey k2 r := by
  intro r
  induction r with
  | nil =>
    intro k k2 v h
    simp only [recordSet, lookupKey]
    rw [if_neg (fun hc => h hc.symm)]
  | cons p r ih =>
    obtain ⟨ka, va⟩ := p
    intro k k2 v h
    by_cases hp : ka = k
    · subst hp
      simp only [recordSet, if_pos rfl, lookupKey]
      rw [if_neg (fun hc => h hc.symm), if_neg (fun hc => h hc.symm)]
    · simp only [recordSet, if_neg hp, lookupKey]
      by_cases hq : ka = k2
      · rw [if_pos hq, if_pos hq]
      · rw [if_neg hq, if_neg hq, ih k k2 v h]

theorem lookupKey_none_iff :
    ∀ (r : KeyRecord) (k : String),
      lookupKey k r = none ↔ k ∉ r.map Prod.fst := by
  intro r
  induction r with
  | nil => intro k; simp [lookupKey]
  | cons p r ih =>
    obtain ⟨ka, va⟩ := p
    intro k
    simp only [lookupKey, List.map_cons, List.mem_cons]
    by_cases h : ka = k
    · simp [h]
    · have hk : ¬ k = ka := fun hc => h hc.symm
      rw [if_neg h, ih k]
      simp [hk]

theorem lookupKey_isSome_iff (r : KeyRecord) (k : String) :
    (lookupKey k r).isSome ↔ k ∈ r.map Prod.fst := by
  constructor
  · intro h
    by_contra hmem
    rw [← lookupKey_none_iff r k] at hmem
    rw [hmem] at h
    simp at h
  · intro h
    cases hl : lookupKey k r with
    | none => exact absurd h ((lookupKey_none_iff r k).mp hl)
    | some v => rfl

theorem recordSet_keys_mem :
    ∀ (r : KeyRecord) (k : String) (v : OneWayNode), k ∈ r.map Prod.fst →
      (recordSet r k v).map Prod.fst = r.map Prod.fst := by
  intro r
  induction r with
  | nil => intro k v h; simp at h
  | cons p r ih =>
    obtain ⟨ka, va⟩ := p
    intro k v h
    by_cases hp : ka = k
    · subst hp
      simp [recordSet]
    · simp only [List.map_cons, List.mem_cons] at h
      rcases h with h1 | h2
      · exact absurd h1.symm hp
      · simp [recordSet, hp, ih k v h2]

theorem recordSet_keys_not_mem :
    ∀ (r : KeyRecord) (k : String) (v : OneWayNode), k ∉ r.map Prod.fst →
      (recordSet r k v).map Prod.fst = r.map Prod.fst ++ [k] := by
  intro r
  induction r with
  | nil => intro k v h; rfl
  | cons p r ih =>
    obtain ⟨ka, va⟩ := p
    intro k v h
    simp only [List.map_cons, List.mem_cons] at h
    push_neg at h
    rw [recordSet, if_neg (fun hc => h.1 hc.symm)]
    simp [ih k v h.2]

theorem record_setRecord_self (g : Graph T) (level : Level) (r : KeyRecord) :
    record (setRecord g level r) level = r := by
  cases level <;> rfl

theorem record_setRecord_other (g : Graph T) (level level2 : Level)
    (r : KeyRecord) (h : level2 ≠ level) :
    record (setRecord g level r) level2 = record g level2 := by
  cases level <;> cases level2 <;> first | rfl | exact absurd rfl h

theorem nodes_setRecord (g : Graph T) (level : Level) (r : KeyRecord) :
    (setRecord g level r).nodes = g.nodes := by
  cases level <;> rfl

theorem head_setRecord (g : Graph T) (level : Level) (r : KeyRecord) :
    (setRecord g level r).head = g.head := by
  cases level <;> rfl

theorem tail_setRecord (g : Graph T) (level : Level) (r : KeyRecord) :
    (setRecord g level r).tail = g.tail := by
  cases level <;> rfl

theorem nodeKeys_addKeyRef_self (nd : TwoWayNode T) (level : Level) (key : String) :
    nodeKeys (addKeyRef nd level key) level = nodeKeys nd level ++ [key] := by
  cases level <;> rfl

theorem nodeKeys_addKeyRef_other (nd : TwoWayNode T) (level level2 : Level)
    (key : String) (h : level2 ≠ level) :
    nodeKeys (addKeyRef nd level key) level2 = nodeKeys nd level2 := by
  cases level <;> cases level2 <;> first | rfl | exact absurd rfl h

theorem element_addKeyRef (nd : TwoWayNode T) (level : Level) (key : String) :
    (addKeyRef nd level key).element = nd.element := by
  cases level <;> rfl

theorem next_addKeyRef (nd : TwoWayNode T) (level : Level) (key : String) :
    (addKeyRef nd level key).next = nd.next := by
  cases level <;> rfl

/-! ### Correctness of the recursive `find` scan on invariant states -/

theorem mem_elems_iff (g : Graph T) (x : T) :
    x ∈ elems g ↔ ∃ j nd, g.nodes.get? j = some nd ∧ nd.element = x := by
  rw [elems, mem_iff_lget]
  constructor
  · intro ⟨i, hi⟩
    rw [lget_map] at hi
    cases hn : g.nodes.get? i with
    | none => rw [hn] at hi; simp at hi
    | some nd =>
      rw [hn] at hi
      simp only [Option.map_some', Option.some.injEq] at hi
      exact ⟨i, nd, hn, hi⟩
  · intro ⟨j, nd, hnd, he⟩
    exact ⟨j, by rw [lget_map, hnd]; simp [he]⟩

theorem tailMatches_spec [DecidableEq T] (g : Graph T) (obj : T)
    (h : tailMatches g obj = true) :
    ∃ t nd, g.tail = some t ∧ g.nodes.get? t = some nd ∧ nd.element = obj := by
  rw [tailMatches] at h
  cases ht : g.tail with
  | none => rw [ht] at h; simp at h
  | some t =>
    cases hn : g.nodes.get? t with
    | none =>
      simp only [ht, hn] at h
      simp at h
    | some nd =>
      simp only [ht, hn, decide_eq_true_eq] at h
      exact ⟨t, nd, rfl, hn, h⟩

theorem findAux_sound [DecidableEq T] (g : Graph T) (obj : T) :
    ∀ (fuel : Nat) (cur : Option Nat) (i : Nat),
      findAux g obj cur fuel = some (some i) →
      ∃ nd, g.nodes.get? i = some nd ∧ nd.element = obj := by
  intro fuel
  induction fuel with
  | zero => intro cur i h; simp [findAux] at h
  | succ fuel ih =>
    intro cur i h
    cases cur with
    | none => simp [findAux] at h
    | some c =>
      cases hn : g.nodes.get? c with
      | none =>
        simp only [findAux, hn] at h
        simp at h
      | some nd =>
        simp only [findAux, hn] at h
        by_cases he : nd.element = obj
        · rw [if_pos he] at h
          simp only [Option.some.injEq] at h
          rw [← h]
          exact ⟨nd, hn, he⟩
        · rw [if_neg he] at h
          by_cases htm : tailMatches g obj = true
          · rw [if_pos htm] at h
            obtain ⟨t, nd2, ht, hn2, he2⟩ := tailMatches_spec g obj htm
            rw [ht] at h
            simp only [Option.some.injEq] at h
            rw [← h]
            exact ⟨nd2, hn2, he2⟩
          · rw [if_neg htm] at h
            exact ih nd.next i h

theorem findAux_complete [DecidableEq T] (g : Graph T) (hg : Inv g) (obj : T) :
    ∀ (fuel c : Nat), c < g.nodes.length →
      g.nodes.length - c < fuel →
      (∃ j, c ≤ j ∧ ∃ nd, g.nodes.get? j = some nd ∧ nd.element = obj) →
      ∃ j nd, g.nodes.get? j = some nd ∧ nd.element = obj ∧
        findAux g obj (some c) fuel = some (some j) := by
  intro fuel
  induction fuel with
  | zero => intro c hc hf hex; omega
  | succ fuel ih =>
    intro c hc hf hex
    obtain ⟨nd, hnd⟩ := lget_of_lt g.nodes c hc
    simp only [findAux, hnd]
    by_cases he : nd.element = obj
    · exact ⟨c, nd, hnd, he, by rw [if_pos he]⟩
    · rw [if_neg he]
      by_cases htm : tailMatches g obj = true
      · obtain ⟨t, nd2, ht, hn2, he2⟩ := tailMatches_spec g obj htm
        exact ⟨t, nd2, hn2, he2, by rw [if_pos htm, ht]⟩
      · rw [if_neg htm]
        obtain ⟨j, hcj, ndj, hndj, hej⟩ := hex
        have hjc : j ≠ c := by
          intro hc2
          rw [hc2, hnd] at hndj
          injection hndj with h2
          rw [h2] at he
          exact he hej
        have hjlt : j < g.nodes.length := lget_some_lt _ _ _ hndj
        have hc1 : c + 1 < g.nodes.length := by omega
        rw [hg.next_eq c nd hnd, if_pos hc1]
        exact ih (c + 1) hc1 (by omega) ⟨j, by omega, ndj, hndj, hej⟩

theorem findAux_none [DecidableEq T] (g : Graph T) (hg : Inv g) (obj : T)
    (habs : ∀ j nd, g.nodes.get? j = some nd → nd.element ≠ obj) :
    ∀ (fuel c : Nat), c < g.nodes.length → g.nodes.length - c < fuel →
      findAux g obj (some c) fuel = some none := by
  intro fuel
  induction fuel with
  | zero => intro c hc hf; omega
  | succ fuel ih =>
    intro c hc hf
    obtain ⟨nd, hnd⟩ := lget_of_lt g.nodes c hc
    simp only [findAux, hnd]
    rw [if_neg (habs c nd hnd)]
    have htm : ¬ tailMatches g obj = true := by
      intro h
      obtain ⟨t, nd2, _, hn2, he2⟩ := tailMatches_spec g obj h
      exact habs t nd2 hn2 he2
    rw [if_neg htm, hg.next_eq c nd hnd]
    by_cases hlt : c + 1 < g.nodes.length
    · rw [if_pos hlt]
      exact ih (c + 1) hlt (by omega)
    · rw [if_neg hlt]
      cases fuel with
      | zero => omega
      | succ f2 => rfl

theorem find_found [DecidableEq T] (g : Graph T) (hg : Inv g) (obj : T)
    (hmem : obj ∈ elems g) :
    ∃ j nd, g.nodes.get? j = some nd ∧ nd.element = obj ∧
      findD g obj = some j := by
  obtain ⟨j, nd, hnd, he⟩ := (mem_elems_iff g obj).mp hmem
  have hjlt : j < g.nodes.length := lget_some_lt _ _ _ hnd
  have hlen : g.nodes.length ≠ 0 := by omega
  have hhead : g.head = some 0 := by rw [hg.head_eq, if_neg hlen]
  obtain ⟨j2, nd2, h1, h2, h3⟩ :=
    findAux_complete g hg obj (g.nodes.length + 1) 0 (by omega) (by omega)
      ⟨j, by omega, nd, hnd, he⟩
  exact ⟨j2, nd2, h1, h2, by rw [findD, find, hhead, h3]; rfl⟩

theorem find_not_found [DecidableEq T] (g : Graph T) (hg : Inv g) (obj : T)
    (hmem : obj ∉ elems g) : findD g obj = none := by
  have habs : ∀ j nd, g.nodes.get? j = some nd → nd.element ≠ obj := by
    intro j nd hnd he
    exact hmem ((mem_elems_iff g obj).mpr ⟨j, nd, hnd, he⟩)
  by_cases hlen : g.nodes.length = 0
  · rw [findD, find, hg.head_eq, if_pos hlen]
    rfl
  · have hhead : g.head = some 0 := by rw [hg.head_eq, if_neg hlen]
    rw [findD, find, hhead,
      findAux_none g hg obj habs (g.nodes.length + 1) 0 (by omega) (by omega)]
    rfl

theorem findD_some_spec [DecidableEq T] (g : Graph T) (obj : T) (i : Nat)
    (h : findD g obj = some i) :
    ∃ nd, g.nodes.get? i = some nd ∧ nd.element = obj := by
  rw [findD] at h
  cases hf : find g obj with
  | none => rw [hf] at h; simp at h
  | some o =>
    rw [hf] at h
    simp only [Option.getD_some] at h
    rw [h] at hf
    exact findAux_sound g obj (g.nodes.length + 1) g.head i hf

theorem findD_none_not_mem [DecidableEq T] (g : Graph T) (hg : Inv g) (obj : T)
    (h : findD g obj = none) : obj ∉ elems g := by
  intro hmem
  obtain ⟨j, nd, _, _, hD⟩ := find_found g hg obj hmem
  rw [h] at hD
  exact Option.noConfusion hD

/-! ### Invariant preservation -/

theorem lget_ge {α : Type} :
    ∀ (l : List α) (i : Nat), l.length ≤ i → l.get? i = none := by
  intro l
  induction l with
  | nil => intro i h; cases i <;> rfl
  | cons b l ih =>
    intro i h
    cases i with
    | zero => simp at h
    | succ n =>
      simp only [List.length_cons] at h
      simpa using ih n (by omega)

theorem map_listModify {α β : Type} (h : α → β) (f : α → α)
    (hpres : ∀ a, h (f a) = h a) :
    ∀ (l : List α) (i : Nat), (listModify l i f).map h = l.map h := by
  intro l
  induction l with
  | nil => intro i; rfl
  | cons b l ih =>
    intro i
    cases i with
    | zero => simp [listModify, hpres]
    | succ n => simp [listModify, ih n]

theorem record_wireNode (g : Graph T) (level : Level) (key : String) (i : Nat)
    (lvl : Level) : record (wireNode g level key i) lvl = record g lvl := by
  cases lvl <;> rfl

theorem mem_nodeKeys_addKeyRef (nd : TwoWayNode T) (level lvl2 : Level)
    (key k : String) (h : k ∈ nodeKeys nd lvl2) :
    k ∈ nodeKeys (addKeyRef nd level key) lvl2 := by
  by_cases hl : lvl2 = level
  · subst hl
    rw [nodeKeys_addKeyRef_self]
    exact List.mem_append.mpr (Or.inl h)
  · rw [nodeKeys_addKeyRef_other nd level lvl2 key hl]
    exact h

theorem inv_empty : Inv (emptyGraph : Graph T) := by
  refine ⟨by simp [emptyGraph], by simp [emptyGraph], ?_, by simp [emptyGraph],
    ?_, ?_, ?_, ?_⟩
  · intro i nd hnd
    have h0 : (emptyGraph : Graph T).nodes.get? i = none :=
      lget_ge _ i (by simp [emptyGraph])
    rw [h0] at hnd
    exact Option.noConfusion hnd
  · intro level
    cases level <;> simp [record, emptyGraph]
  · intro level k own hlk
    cases level <;> simp [record, emptyGraph, lookupKey] at hlk
  · intro level k own hlk
    cases level <;> simp [record, emptyGraph, lookupKey] at hlk
  · intro level i nd hnd
    have h0 : (emptyGraph : Graph T).nodes.get? i = none :=
      lget_ge _ i (by simp [emptyGraph])
    rw [h0] at hnd
    exact Option.noConfusion hnd

theorem addLevelKey_eq (g : Graph T) (level : Level) (key : String) :
    addLevelKey g level key =
      if (lookupKey key (record g level)).isNone then
        setRecord g level (recordSet (record g level) key ⟨[]⟩)
      else g := by
  cases level <;> rfl

theorem addLevelKey_spec [DecidableEq T] (g : Graph T) (hg : Inv g)
    (level : Level) (key : String) :
    Inv (addLevelKey g level key) ∧
    (addLevelKey g level key).nodes = g.nodes ∧
    (∀ lvl2, lvl2 ≠ level →
      record (addLevelKey g level key) lvl2 = record g lvl2) ∧
    (∃ own2, lookupKey key (record (addLevelKey g level key) level) = some own2 ∧
      (lookupKey key (record g level) = some own2 ∨
        (lookupKey key (record g level) = none ∧ own2 = ⟨[]⟩))) ∧
    (∀ k2, k2 ≠ key →
      lookupKey k2 (record (addLevelKey g level key) level) =
        lookupKey k2 (record g level)) := by
  rw [addLevelKey_eq]
  cases hl : lookupKey key (record g level) with
  | some own =>
    rw [if_neg (by simp : ¬ ((some own).isNone = true))]
    exact ⟨hg, rfl, fun _ _ => rfl, ⟨own, hl, Or.inl rfl⟩, fun _ _ => rfl⟩
  | none =>
    rw [show (if (none : Option OneWayNode).isNone = true then
        setRecord g level (recordSet (record g level) key ⟨[]⟩) else g)
      = setRecord g level (recordSet (record g level) key ⟨[]⟩) from rfl]
    have hnotmem : key ∉ (record g level).map Prod.fst :=
      (lookupKey_none_iff (record g level) key).mp hl
    have hrecs : record (setRecord g level (recordSet (record g level) key ⟨[]⟩)) level
        = recordSet (record g level) key ⟨[]⟩ := record_setRecord_self g level _
    have hreco : ∀ lvl2, lvl2 ≠ level →
        record (setRecord g level (recordSet (record g level) key ⟨[]⟩)) lvl2
          = record g lvl2 := fun lvl2 h2 => record_setRecord_other g level lvl2 _ h2
    have hlookup : ∀ k2, lookupKey k2
        (record (setRecord g level (recordSet (record g level) key ⟨[]⟩)) level) =
        if k2 = key then some ⟨[]⟩ else lookupKey k2 (record g level) := by
      intro k2
      rw [hrecs]
      by_cases hk2 : k2 = key
      · rw [if_pos hk2, hk2, lookupKey_recordSet_self]
      · rw [if_neg hk2, lookupKey_recordSet_ne _ _ _ _ hk2]
    refine ⟨?_, nodes_setRecord g level _, hreco,
      ⟨⟨[]⟩, by rw [hlookup key, if_pos rfl], Or.inr ⟨rfl, rfl⟩⟩,
      fun k2 h2 => by rw [hlookup k2, if_neg h2]⟩
    constructor
    · rw [nodes_setRecord, head_setRecord]; exact hg.head_eq
    · rw [nodes_setRecord, tail_setRecord]; exact hg.tail_eq
    · intro i nd hnd
      rw [nodes_setRecord] at hnd ⊢
      exact hg.next_eq i nd hnd
    · rw [nodes_setRecord]; exact hg.elems_nodup
    · intro lvl2
      by_cases h2 : lvl2 = level
      · subst h2
        rw [hrecs, recordSet_keys_not_mem _ _ _ hnotmem]
        exact (nodup_append_singleton _ _).mpr ⟨hg.keys_nodup lvl2, hnotmem⟩
      · rw [hreco lvl2 h2]; exact hg.keys_nodup lvl2
    · intro lvl2 k own2 hlk
      rw [nodes_setRecord]
      by_cases h2 : lvl2 = level
      · subst h2
        rw [hlookup k] at hlk
        by_cases hk2 : k = key
        · rw [if_pos hk2] at hlk
          injection hlk with h3
          rw [← h3]
          intro i hi
          simp at hi
        · rw [if_neg hk2] at hlk
          exact hg.edges_lt lvl2 k own2 hlk
      · rw [hreco lvl2 h2] at hlk
        exact hg.edges_lt lvl2 k own2 hlk
    · intro lvl2 k own2 hlk
      by_cases h2 : lvl2 = level
      · subst h2
        rw [hlookup k] at hlk
        by_cases hk2 : k = key
        · rw [if_pos hk2] at hlk
          injection hlk with h3
          rw [← h3]
          intro i hi
          simp at hi
        · rw [if_neg hk2] at hlk
          intro i hi nd hnd
          rw [nodes_setRecord] at hnd
          exact hg.recip1 lvl2 k own2 hlk i hi nd hnd
      · rw [hreco lvl2 h2] at hlk
        intro i hi nd hnd
        rw [nodes_setRecord] at hnd
        exact hg.recip1 lvl2 k own2 hlk i hi nd hnd
    · intro lvl2 i nd hnd k hk
      rw [nodes_setRecord] at hnd
      obtain ⟨own2, h1, h2⟩ := hg.recip2 lvl2 i nd hnd k hk
      by_cases hl2 : lvl2 = level
      · subst hl2
        refine ⟨own2, ?_, h2⟩
        rw [hlookup k]
        by_cases hk2 : k = key
        · rw [hk2] at h1
          rw [h1] at hl
          exact Option.noConfusion hl
        · rw [if_neg hk2]; exact h1
      · rw [hreco lvl2 hl2]
        exact ⟨own2, h1, h2⟩

theorem nodeKeys_next_update (ndo : TwoWayNode T) (x : Option Nat)
    (lvl : Level) : nodeKeys { ndo with next := x } lvl = nodeKeys ndo lvl := by
  cases lvl <;> rfl

theorem findOrCreate_spec [DecidableEq T] (g : Graph T) (hg : Inv g) (e : T)
    (gc : Graph T) (i : Nat) (hfc : findOrCreate g e = (gc, i)) :
    Inv gc ∧ i < gc.nodes.length ∧ elem? gc i = some e ∧
    (∀ lvl, record gc lvl = record g lvl) ∧
    (∀ j, j < g.nodes.length → elem? gc j = elem? g j) ∧
    g.nodes.length ≤ gc.nodes.length ∧
    (e ∈ elems g → gc = g) ∧
    (e ∉ elems g → elems gc = elems g ++ [e]) := by
  cases hD : findD g e with
  | some i0 =>
    have hfc2 : findOrCreate g e = (g, i0) := by
      simp only [findOrCreate, hD]
    rw [hfc2] at hfc
    injection hfc with h1 h2
    subst h1
    subst h2
    obtain ⟨nd, hnd, hel⟩ := findD_some_spec g e i0 hD
    have hmem : e ∈ elems g := (mem_elems_iff g e).mpr ⟨i0, nd, hnd, hel⟩
    exact ⟨hg, lget_some_lt _ _ _ hnd, by rw [elem?, hnd]; simp [hel],
      fun _ => rfl, fun _ _ => rfl, Nat.le_refl _, fun _ => rfl,
      fun hn => absurd hmem hn⟩
  | none =>
    have hnotmem : e ∉ elems g := findD_none_not_mem g hg e hD
    cases htail : g.tail with
    | none =>
      have hlen0 : g.nodes.length = 0 := by
        by_contra hn
        rw [hg.tail_eq, if_neg hn] at htail
        exact Option.noConfusion htail
      have hhead : g.head = none := by rw [hg.head_eq, if_pos hlen0]
      have hfc2 : findOrCreate g e =
          ({ g with
              nodes := g.nodes ++ [⟨e, [], [], none, g.tail⟩]
              head := some g.nodes.length
              tail := some g.nodes.length }, g.nodes.length) := by
        simp only [findOrCreate, hD, htail, hhead]
      rw [hfc2] at hfc
      injection hfc with h1 h2
      subst h1
      subst h2
      have hrec : ∀ lvl, record
          ({ g with
              nodes := g.nodes ++ [⟨e, [], [], none, g.tail⟩]
              head := some g.nodes.length
              tail := some g.nodes.length } : Graph T) lvl = record g lvl := by
        intro lvl
        cases lvl <;> rfl
      have hlen' : (g.nodes ++ [(⟨e, [], [], none, g.tail⟩ : TwoWayNode T)]).length
          = g.nodes.length + 1 := by
        rw [List.length_append]
        rfl
      have hget_new : (g.nodes ++ [(⟨e, [], [], none, g.tail⟩ : TwoWayNode T)]).get?
          g.nodes.length = some ⟨e, [], [], none, g.tail⟩ :=
        lget_append_len g.nodes _
      have helems : (g.nodes ++ [(⟨e, [], [], none, g.tail⟩ : TwoWayNode T)]).map
          TwoWayNode.element = g.nodes.map TwoWayNode.element ++ [e] := by
        rw [List.map_append]
        rfl
      have hgetj : ∀ j nd,
          (g.nodes ++ [(⟨e, [], [], none, g.tail⟩ : TwoWayNode T)]).get? j = some nd →
          j = g.nodes.length ∧ nd = ⟨e, [], [], none, g.tail⟩ := by
        intro j nd hnd
        have hjlt := lget_some_lt _ _ _ hnd
        rw [hlen'] at hjlt
        have hj2 : j = g.nodes.length := by omega
        rw [hj2, hget_new] at hnd
        injection hnd with h3
        exact ⟨hj2, h3.symm⟩
      refine ⟨?_, ?_, ?_, hrec, ?_, ?_, ?_, ?_⟩
      · refine ⟨?_, ?_, ?_, ?_, ?_, ?_, ?_, ?_⟩
        · show some g.nodes.length = if _ = 0 then none else some 0
          rw [if_neg (by simp only [hlen']; omega), hlen0]
        · show some g.nodes.length = if _ = 0 then none else some _
          rw [if_neg (by simp only [hlen']; omega), hlen']
          rfl
        · intro j nd hnd
          obtain ⟨hj2, h3⟩ := hgetj j nd hnd
          rw [h3, hj2]
          show (none : Option Nat) = if _ < (g.nodes ++ _).length then _ else none
          rw [if_neg (by rw [hlen']; omega)]
        · show ((g.nodes ++ _).map TwoWayNode.element).Nodup
          rw [helems]
          exact (nodup_append_singleton _ _).mpr ⟨hg.elems_nodup, hnotmem⟩
        · intro lvl
          rw [hrec lvl]
          exact hg.keys_nodup lvl
        · intro lvl k own hlk
          rw [hrec lvl] at hlk
          intro j hj
          have := hg.edges_lt lvl k own hlk j hj
          show j < (g.nodes ++ _).length
          rw [hlen']
          omega
        · intro lvl k own hlk
          rw [hrec lvl] at hlk
          intro j hj nd hnd
          have := hg.edges_lt lvl k own hlk j hj
          exact absurd this (by omega)
        · intro lvl j nd hnd k hk
          obtain ⟨hj2, h3⟩ := hgetj j nd hnd
          rw [h3] at hk
          cases lvl <;> simp [nodeKeys] at hk
      · show g.nodes.length < (g.nodes ++ _).length
        rw [hlen']
        omega
      · rw [elem?]
        show ((g.nodes ++ _).get? g.nodes.length).map _ = some e
        rw [hget_new]
        rfl
      · intro j hj
        exact absurd hj (by omega)
      · show g.nodes.length ≤ (g.nodes ++ _).length
        rw [hlen']
        omega
      · intro hmem
        exact absurd hmem hnotmem
      · intro _
        show (g.nodes ++ _).map TwoWayNode.element = elems g ++ [e]
        rw [helems]
        rfl
    | some t =>
      have hlen_pos : g.nodes.length ≠ 0 := by
        intro h0
        rw [hg.tail_eq, if_pos h0] at htail
        exact Option.noConfusion htail
      have ht : t = g.nodes.length - 1 := by
        rw [hg.tail_eq, if_neg hlen_pos] at htail
        injection htail with h3
        exact h3.symm
      have hhead : g.head = some 0 := by rw [hg.head_eq, if_neg hlen_pos]
      have hfc2 : findOrCreate g e =
          ({ g with
              nodes := listModify (g.nodes ++ [⟨e, [], [], none, g.tail⟩]) t
                (fun nd => { nd with next := some g.nodes.length })
              head := some 0
              tail := some g.nodes.length }, g.nodes.length) := by
        simp only [findOrCreate, hD, htail, hhead]
      rw [hfc2] at hfc
      injection hfc with h1 h2
      subst h1
      subst h2
      have hrec : ∀ lvl, record
          ({ g with
              nodes := listModify (g.nodes ++ [⟨e, [], [], none, g.tail⟩]) t
                (fun nd => { nd with next := some g.nodes.length })
              head := some 0
              tail := some g.nodes.length } : Graph T) lvl = record g lvl := by
        intro lvl
        cases lvl <;> rfl
      have hlen' : (listModify (g.nodes ++ [(⟨e, [], [], none, g.tail⟩ : TwoWayNode T)]) t
          (fun nd => { nd with next := some g.nodes.length })).length
          = g.nodes.length + 1 := by
        rw [listModify_length, List.length_append]
        rfl
      have hget_old : ∀ j ndo, g.nodes.get? j = some ndo →
          (listModify (g.nodes ++ [(⟨e, [], [], none, g.tail⟩ : TwoWayNode T)]) t
            (fun nd => { nd with next := some g.nodes.length })).get? j =
          some (if t = j then { ndo with next := some g.nodes.length } else ndo) := by
        intro j ndo hj
        have hjlt := lget_some_lt _ _ _ hj
        rw [listModify_lget]
        by_cases hc : t = j
        · rw [if_pos hc, if_pos hc, lget_append_left _ _ _ hjlt, hj]
          rfl
        · rw [if_neg hc, if_neg hc, lget_append_left _ _ _ hjlt, hj]
      have hget_new :
          (listModify (g.nodes ++ [(⟨e, [], [], none, g.tail⟩ : TwoWayNode T)]) t
            (fun nd => { nd with next := some g.nodes.length })).get? g.nodes.length =
          some ⟨e, [], [], none, g.tail⟩ := by
        rw [listModify_lget, if_neg (by omega : ¬ t = g.nodes.length)]
        exact lget_append_len g.nodes _
      have helems :
          (listModify (g.nodes ++ [(⟨e, [], [], none, g.tail⟩ : TwoWayNode T)]) t
            (fun nd => { nd with next := some g.nodes.length })).map TwoWayNode.element
          = g.nodes.map TwoWayNode.element ++ [e] := by
        rw [map_listModify TwoWayNode.element
          (fun nd => { nd with next := some g.nodes.length }) (fun a => rfl),
          List.map_append]
        rfl
      refine ⟨?_, ?_, ?_, hrec, ?_, ?_, ?_, ?_⟩
      · refine ⟨?_, ?_, ?_, ?_, ?_, ?_, ?_, ?_⟩
        · show some 0 = if _ = 0 then none else some 0
          rw [if_neg (by simp only [hlen']; omega)]
        · show some g.nodes.length = if _ = 0 then none else some _
          rw [if_neg (by simp only [hlen']; omega), hlen']
          rfl
        · intro j nd hnd
          have hjlt := lget_some_lt _ _ _ hnd
          rw [hlen'] at hjlt
          show nd.next = if j + 1 < (listModify _ _ _).length then some (j + 1) else none
          rw [hlen']
          by_cases hj : j < g.nodes.length
          · obtain ⟨ndo, hndo⟩ := lget_of_lt g.nodes j hj
            rw [hget_old j ndo hndo] at hnd
            injection hnd with h3
            rw [← h3]
            by_cases hc : t = j
            · rw [if_pos hc]
              show some g.nodes.length = if j + 1 < g.nodes.length + 1 then some (j + 1) else none
              rw [if_pos (by omega)]
              rw [show j + 1 = g.nodes.length by omega]
            · rw [if_neg hc]
              show ndo.next = if j + 1 < g.nodes.length + 1 then some (j + 1) else none
              rw [hg.next_eq j ndo hndo, if_pos (by omega), if_pos (by omega)]
          · have hj2 : j = g.nodes.length := by omega
            rw [hj2, hget_new] at hnd
            injection hnd with h3
            rw [← h3, hj2]
            show (none : Option Nat) = if _ then _ else none
            rw [if_neg (by omega)]
        · show ((listModify (g.nodes ++ _) t _).map TwoWayNode.element).Nodup
          rw [helems]
          exact (nodup_append_singleton _ _).mpr ⟨hg.elems_nodup, hnotmem⟩
        · intro lvl
          rw [hrec lvl]
          exact hg.keys_nodup lvl
        · intro lvl k own hlk
          rw [hrec lvl] at hlk
          intro j hj
          have := hg.edges_lt lvl k own hlk j hj
          show j < (listModify _ _ _).length
          rw [hlen']
          omega
        · intro lvl k own hlk
          rw [hrec lvl] at hlk
          intro j hj nd hnd
          have hjlt := hg.edges_lt lvl k own hlk j hj
          obtain ⟨ndo, hndo⟩ := lget_of_lt g.nodes j hjlt
          rw [hget_old j ndo hndo] at hnd
          injection hnd with h3
          rw [← h3]
          by_cases hc : t = j
          · rw [if_pos hc, nodeKeys_next_update]
            exact hg.recip1 lvl k own hlk j hj ndo hndo
          · rw [if_neg hc]
            exact hg.recip1 lvl k own hlk j hj ndo hndo
        · intro lvl j nd hnd k hk
          have hjlt := lget_some_lt _ _ _ hnd
          rw [hlen'] at hjlt
          by_cases hj : j < g.nodes.length
          · obtain ⟨ndo, hndo⟩ := lget_of_lt g.nodes j hj
            rw [hget_old j ndo hndo] at hnd
            injection hnd with h3
            rw [← h3] at hk
            have hk2 : k ∈ nodeKeys ndo lvl := by
              by_cases hc : t = j
              · rw [if_pos hc, nodeKeys_next_update] at hk
                exact hk
              · rw [if_neg hc] at hk
                exact hk
            obtain ⟨own, ho1, ho2⟩ := hg.recip2 lvl j ndo hndo k hk2
            exact ⟨own, by rw [hrec lvl]; exact ho1, ho2⟩
          · have hj2 : j = g.nodes.length := by omega
            rw [hj2, hget_new] at hnd
            injection hnd with h3
            rw [← h3] at hk
            cases lvl <;> simp [nodeKeys] at hk
      · show g.nodes.length < (listModify _ _ _).length
        rw [hlen']
        omega
      · rw [elem?]
        show ((listModify _ _ _).get? g.nodes.length).map TwoWayNode.element = some e
        rw [hget_new]
        rfl
      · intro j hj
        obtain ⟨ndo, hndo⟩ := lget_of_lt g.nodes j hj
        rw [elem?, elem?]
        show ((listModify _ _ _).get? j).map _ = _
        rw [hget_old j ndo hndo, hndo]
        by_cases hc : t = j
        · rw [if_pos hc]
          rfl
        · rw [if_neg hc]
      · show g.nodes.length ≤ (listModify _ _ _).length
        rw [hlen']
        omega
      · intro hmem
        exact absurd hmem hnotmem
      · intro _
        show (listModify _ _ _).map TwoWayNode.element = elems g ++ [e]
        rw [helems]
        rfl


theorem pushWire_spec [DecidableEq T] (gc : Graph T) (hgc : Inv gc)
    (level : Level) (key : String) (own : OneWayNode) (i : Nat)
    (hk : lookupKey key (record gc level) = some own)
    (hi : i < gc.nodes.length) :
    Inv (wireNode (pushToKey gc level key i) level key i) ∧
    lookupKey key (record (wireNode (pushToKey gc level key i) level key i) level)
      = some ⟨own.toNodes ++ [i]⟩ ∧
    (∀ k2, k2 ≠ key →
      lookupKey k2 (record (wireNode (pushToKey gc level key i) level key i) level)
        = lookupKey k2 (record gc level)) ∧
    (∀ lvl2, lvl2 ≠ level →
      record (wireNode (pushToKey gc level key i) level key i) lvl2
        = record gc lvl2) ∧
    elems (wireNode (pushToKey gc level key i) level key i) = elems gc ∧
    (∀ j, elem? (wireNode (pushToKey gc level key i) level key i) j = elem? gc j) ∧
    (wireNode (pushToKey gc level key i) level key i).nodes.length
      = gc.nodes.length := by
  have hpush : pushToKey gc level key i
      = setRecord gc level (recordSet (record gc level) key ⟨own.toNodes ++ [i]⟩) := by
    simp only [pushToKey, hk]
  rw [hpush]
  set rs := recordSet (record gc level) key ⟨own.toNodes ++ [i]⟩ with hrs
  set W := wireNode (setRecord gc level rs) level key i with hW
  have hnodes : W.nodes = listModify gc.nodes i (fun nd => addKeyRef nd level key) := by
    rw [hW]
    show listModify (setRecord gc level rs).nodes i _ = _
    rw [nodes_setRecord]
  have hhead : W.head = gc.head := by
    rw [hW]
    show (setRecord gc level rs).head = gc.head
    exact head_setRecord gc level rs
  have htail : W.tail = gc.tail := by
    rw [hW]
    show (setRecord gc level rs).tail = gc.tail
    exact tail_setRecord gc level rs
  have hrecs : ∀ lvl2, record W lvl2 = record (setRecord gc level rs) lvl2 := by
    intro lvl2
    rw [hW]
    exact record_wireNode _ level key i lvl2
  have hrecl : record W level = rs := by
    rw [hrecs level]
    exact record_setRecord_self gc level rs
  have hreco : ∀ lvl2, lvl2 ≠ level → record W lvl2 = record gc lvl2 := by
    intro lvl2 h2
    rw [hrecs lvl2]
    exact record_setRecord_other gc level lvl2 rs h2
  have hlen : W.nodes.length = gc.nodes.length := by
    rw [hnodes, listModify_length]
  have hget : ∀ j, W.nodes.get? j =
      if i = j then (gc.nodes.get? j).map (fun nd => addKeyRef nd level key)
      else gc.nodes.get? j := by
    intro j
    rw [hnodes, listModify_lget]
  have hlookupl : ∀ k2, lookupKey k2 (record W level) =
      if k2 = key then some ⟨own.toNodes ++ [i]⟩
      else lookupKey k2 (record gc level) := by
    intro k2
    rw [hrecl, hrs]
    by_cases hk2 : k2 = key
    · rw [if_pos hk2, hk2, lookupKey_recordSet_self]
    · rw [if_neg hk2, lookupKey_recordSet_ne _ _ _ _ hk2]
  have helemj : ∀ j, elem? W j = elem? gc j := by
    intro j
    rw [elem?, elem?, hget j]
    by_cases hij : i = j
    · rw [if_pos hij]
      cases hgo : gc.nodes.get? j with
      | none => rfl
      | some ndo => simp [element_addKeyRef]
    · rw [if_neg hij]
  have helems : elems W = elems gc := by
    rw [elems, elems, hnodes]
    exact map_listModify TwoWayNode.element (fun nd => addKeyRef nd level key)
      (fun a => element_addKeyRef a level key) gc.nodes i
  have hndcase : ∀ j nd, W.nodes.get? j = some nd →
      ∃ ndo, gc.nodes.get? j = some ndo ∧
        ((i = j ∧ nd = addKeyRef ndo level key) ∨ (i ≠ j ∧ nd = ndo)) := by
    intro j nd hnd
    rw [hget j] at hnd
    by_cases hij : i = j
    · rw [if_pos hij] at hnd
      cases hgo : gc.nodes.get? j with
      | none => rw [hgo] at hnd; exact Option.noConfusion hnd
      | some ndo =>
        rw [hgo] at hnd
        injection hnd with h3
        exact ⟨ndo, rfl, Or.inl ⟨hij, h3.symm⟩⟩
    · rw [if_neg hij] at hnd
      exact ⟨nd, hnd, Or.inr ⟨hij, rfl⟩⟩
  have hkeymem : key ∈ (record gc level).map Prod.fst :=
    (lookupKey_isSome_iff _ _).mp (by rw [hk]; rfl)
  refine ⟨?_, by rw [hlookupl key, if_pos rfl],
    fun k2 h2 => by rw [hlookupl k2, if_neg h2], hreco, helems, helemj, hlen⟩
  refine ⟨?_, ?_, ?_, ?_, ?_, ?_, ?_, ?_⟩
  · rw [hhead, hlen]
    exact hgc.head_eq
  · rw [htail, hlen]
    exact hgc.tail_eq
  · intro j nd hnd
    obtain ⟨ndo, hgo, hcase⟩ := hndcase j nd hnd
    rw [hlen]
    rcases hcase with ⟨hij, h3⟩ | ⟨hij, h3⟩
    · rw [h3, next_addKeyRef]
      exact hgc.next_eq j ndo hgo
    · rw [h3]
      exact hgc.next_eq j ndo hgo
  · rw [show W.nodes.map TwoWayNode.element = gc.nodes.map TwoWayNode.element from helems]
    exact hgc.elems_nodup
  · intro lvl2
    by_cases h2 : lvl2 = level
    · subst h2
      rw [hrecl, hrs, recordSet_keys_mem _ _ _ hkeymem]
      exact hgc.keys_nodup lvl2
    · rw [hreco lvl2 h2]
      exact hgc.keys_nodup lvl2
  · intro lvl2 k2 own2 hlk j hj
    rw [hlen]
    by_cases h2 : lvl2 = level
    · subst h2
      rw [hlookupl k2] at hlk
      by_cases hk2 : k2 = key
      · rw [if_pos hk2] at hlk
        injection hlk with h3
        rw [← h3] at hj
        rcases List.mem_append.mp hj with hjo | hji
        · exact hgc.edges_lt lvl2 key own hk j hjo
        · rw [List.mem_singleton.mp hji]
          exact hi
      · rw [if_neg hk2] at hlk
        exact hgc.edges_lt lvl2 k2 own2 hlk j hj
    · rw [hreco lvl2 h2] at hlk
      exact hgc.edges_lt lvl2 k2 own2 hlk j hj
  · intro lvl2 k2 own2 hlk j hj nd hnd
    obtain ⟨ndo, hgo, hcase⟩ := hndcase j nd hnd
    have hlift : k2 ∈ nodeKeys ndo lvl2 → k2 ∈ nodeKeys nd lvl2 := by
      intro hmem2
      rcases hcase with ⟨hij, h3⟩ | ⟨hij, h3⟩
      · rw [h3]
        exact mem_nodeKeys_addKeyRef ndo level lvl2 key k2 hmem2
      · rw [h3]
        exact hmem2
    by_cases h2 : lvl2 = level
    · subst h2
      rw [hlookupl k2] at hlk
      by_cases hk2 : k2 = key
      · subst hk2
        rw [if_pos rfl] at hlk
        injection hlk with h3
        rw [← h3] at hj
        rcases List.mem_append.mp hj with hjo | hji
        · exact hlift (hgc.recip1 lvl2 k2 own hk j hjo ndo hgo)
        · have hij : i = j := (List.mem_singleton.mp hji).symm
          rcases hcase with ⟨_, h4⟩ | ⟨hij2, _⟩
          · rw [h4, nodeKeys_addKeyRef_self]
            exact List.mem_append.mpr (Or.inr (List.mem_singleton.mpr rfl))
          · exact absurd hij hij2
      · rw [if_neg hk2] at hlk
        exact hlift (hgc.recip1 lvl2 k2 own2 hlk j hj ndo hgo)
    · rw [hreco lvl2 h2] at hlk
      exact hlift (hgc.recip1 lvl2 k2 own2 hlk j hj ndo hgo)
  · intro lvl2 j nd hnd k2 hkmem
    obtain ⟨ndo, hgo, hcase⟩ := hndcase j nd hnd
    have hold : k2 ∈ nodeKeys ndo lvl2 →
        ∃ own2, lookupKey k2 (record W lvl2) = some own2 ∧ j ∈ own2.toNodes := by
      intro hmem2
      obtain ⟨own2, ho1, ho2⟩ := hgc.recip2 lvl2 j ndo hgo k2 hmem2
      by_cases h2 : lvl2 = level
      · subst h2
        by_cases hk2 : k2 = key
        · subst hk2
          rw [hk] at ho1
          injection ho1 with h3
          refine ⟨⟨own.toNodes ++ [i]⟩, by rw [hlookupl k2, if_pos rfl], ?_⟩
          show j ∈ own.toNodes ++ [i]
          rw [← h3] at ho2
          exact List.mem_append.mpr (Or.inl ho2)
        · exact ⟨own2, by rw [hlookupl k2, if_neg hk2]; exact ho1, ho2⟩
      · exact ⟨own2, by rw [hreco lvl2 h2]; exact ho1, ho2⟩
    rcases hcase with ⟨hij, h3⟩ | ⟨hij, h3⟩
    · rw [h3] at hkmem
      by_cases h2 : lvl2 = level
      · subst h2
        rw [nodeKeys_addKeyRef_self] at hkmem
        rcases List.mem_append.mp hkmem with hko | hkk
        · exact hold hko
        · have hk2 : k2 = key := List.mem_singleton.mp hkk
          subst hk2
          refine ⟨⟨own.toNodes ++ [i]⟩, by rw [hlookupl k2, if_pos rfl], ?_⟩
          show j ∈ own.toNodes ++ [i]
          exact List.mem_append.mpr (Or.inr (List.mem_singleton.mpr hij.symm))
      · rw [nodeKeys_addKeyRef_other ndo level lvl2 key h2] at hkmem
        exact hold hkmem
    · rw [h3] at hkmem
      exact hold hkmem


theorem addOneElement_spec [DecidableEq T] (g : Graph T) (hg : Inv g)
    (level : Level) (key : String) (e : T) (own : OneWayNode)
    (hk : lookupKey key (record g level) = some own) :
    Inv (addOneElement g level key e) ∧
    (∃ i, lookupKey key (record (addOneElement g level key e) level)
        = some ⟨own.toNodes ++ [i]⟩ ∧
      elem? (addOneElement g level key e) i = some e) ∧
    (∀ k2, k2 ≠ key →
      lookupKey k2 (record (addOneElement g level key e) level)
        = lookupKey k2 (record g level)) ∧
    (∀ lvl2, lvl2 ≠ level →
      record (addOneElement g level key e) lvl2 = record g lvl2) ∧
    (∀ j, j < g.nodes.length →
      elem? (addOneElement g level key e) j = elem? g j) ∧
    g.nodes.length ≤ (addOneElement g level key e).nodes.length ∧
    (e ∈ elems g → elems (addOneElement g level key e) = elems g) ∧
    (e ∉ elems g → elems (addOneElement g level key e) = elems g ++ [e]) := by
  rcases hfc : findOrCreate g e with ⟨gc, i⟩
  obtain ⟨hinv_c, hi_lt, helem_i, hrec_c, helem_old, hlen_le, hmem_id, hnew_elems⟩ :=
    findOrCreate_spec g hg e gc i hfc
  have hk_c : lookupKey key (record gc level) = some own := by
    rw [hrec_c level]
    exact hk
  obtain ⟨hinv_w, hlook_self, hlook_ne, hrec_w, helems_w, helemj_w, hlen_w⟩ :=
    pushWire_spec gc hinv_c level key own i hk_c hi_lt
  have heq : addOneElement g level key e
      = wireNode (pushToKey gc level key i) level key i := by
    simp only [addOneElement, hk, hfc]
  rw [heq]
  refine ⟨hinv_w, ⟨i, hlook_self, by rw [helemj_w i]; exact helem_i⟩,
    fun k2 h2 => by rw [hlook_ne k2 h2, hrec_c level],
    fun lvl2 h2 => by rw [hrec_w lvl2 h2, hrec_c lvl2],
    fun j hj => by rw [helemj_w j, helem_old j hj],
    by rw [hlen_w]; exact hlen_le,
    fun hm => by rw [helems_w, hmem_id hm],
    fun hm => by rw [helems_w, hnew_elems hm]⟩


theorem elem?_some_lt (g : Graph T) (i : Nat) (x : T)
    (h : elem? g i = some x) : i < g.nodes.length := by
  rw [elem?] at h
  cases hn : g.nodes.get? i with
  | none => rw [hn] at h; exact Option.noConfusion h
  | some nd => exact lget_some_lt _ _ _ hn

theorem map_congr_mem {α β : Type} (f f2 : α → β) :
    ∀ (l : List α), (∀ a ∈ l, f a = f2 a) → l.map f = l.map f2 := by
  intro l
  induction l with
  | nil => intro _; rfl
  | cons b l ih =>
    intro h
    simp only [List.map_cons]
    rw [h b (List.mem_cons_self b l), ih (fun a ha => h a (List.mem_cons_of_mem b ha))]

theorem addFold_spec [DecidableEq T] :
    ∀ (es : List T) (g : Graph T), Inv g → ∀ (level : Level) (key : String)
      (own : OneWayNode), lookupKey key (record g level) = some own →
    Inv (es.foldl (fun acc e => addOneElement acc level key e) g) ∧
    (∃ tos, lookupKey key
        (record (es.foldl (fun acc e => addOneElement acc level key e) g) level)
        = some ⟨own.toNodes ++ tos⟩ ∧
      tos.map (elem? (es.foldl (fun acc e => addOneElement acc level key e) g))
        = es.map some) ∧
    (∀ k2, k2 ≠ key → lookupKey k2
        (record (es.foldl (fun acc e => addOneElement acc level key e) g) level)
        = lookupKey k2 (record g level)) ∧
    (∀ lvl2, lvl2 ≠ level →
      record (es.foldl (fun acc e => addOneElement acc level key e) g) lvl2
        = record g lvl2) ∧
    (∀ j, j < g.nodes.length →
      elem? (es.foldl (fun acc e => addOneElement acc level key e) g) j
        = elem? g j) ∧
    g.nodes.length ≤
      (es.foldl (fun acc e => addOneElement acc level key e) g).nodes.length ∧
    ((∀ x ∈ es, x ∈ elems g) →
      elems (es.foldl (fun acc e => addOneElement acc level key e) g) = elems g) := by
  intro es
  induction es with
  | nil =>
    intro g hg level key own hk
    exact ⟨hg, ⟨[], by simpa using hk, by simp⟩, fun _ _ => rfl, fun _ _ => rfl,
      fun _ _ => rfl, Nat.le_refl _, fun _ => rfl⟩
  | cons e rest ih =>
    intro g hg level key own hk
    obtain ⟨hinv1, ⟨i, hlook1, helem1⟩, hne1, hreco1, hold1, hle1, hmm1, hnm1⟩ :=
      addOneElement_spec g hg level key e own hk
    obtain ⟨hinvG, ⟨tos, hlookG, htosG⟩, hneG, hrecoG, holdG, hleG, hmemG⟩ :=
      ih (addOneElement g level key e) hinv1 level key ⟨own.toNodes ++ [i]⟩ hlook1
    have hilt : i < (addOneElement g level key e).nodes.length :=
      elem?_some_lt _ i e helem1
    have hstep : (e :: rest).foldl (fun acc x => addOneElement acc level key x) g
        = rest.foldl (fun acc x => addOneElement acc level key x)
            (addOneElement g level key e) := rfl
    rw [hstep]
    refine ⟨hinvG, ⟨i :: tos, ?_, ?_⟩, ?_, ?_, ?_, ?_, ?_⟩
    · rw [hlookG]
      show some (⟨(own.toNodes ++ [i]) ++ tos⟩ : OneWayNode) = _
      rw [List.append_assoc]
      rfl
    · simp only [List.map_cons]
      rw [htosG, holdG i hilt, helem1]
    · intro k2 h2
      rw [hneG k2 h2, hne1 k2 h2]
    · intro lvl2 h2
      rw [hrecoG lvl2 h2, hreco1 lvl2 h2]
    · intro j hj
      rw [holdG j (Nat.lt_of_lt_of_le hj hle1), hold1 j hj]
    · exact Nat.le_trans hle1 hleG
    · intro hall
      have he : e ∈ elems g := hall e (List.mem_cons_self e rest)
      have h1 : elems (addOneElement g level key e) = elems g := hmm1 he
      rw [hmemG (fun x hx => by rw [h1]; exact hall x (List.mem_cons_of_mem e hx)), h1]

theorem addElementToGraph_spec [DecidableEq T] (g : Graph T) (hg : Inv g)
    (level : Level) (key : String) (es : List T) :
    Inv (addElementToGraph g level key es) ∧
    (∀ lvl2, lvl2 ≠ level →
      record (addElementToGraph g level key es) lvl2 = record g lvl2) ∧
    (∀ j, j < g.nodes.length →
      elem? (addElementToGraph g level key es) j = elem? g j) ∧
    g.nodes.length ≤ (addElementToGraph g level key es).nodes.length ∧
    ((∀ x ∈ es, x ∈ elems g) → elems (addElementToGraph g level key es) = elems g) ∧
    (lookupKey key (record g level) = none →
      ∃ tos, lookupKey key (record (addElementToGraph g level key es) level)
          = some ⟨tos⟩ ∧
        tos.map (elem? (addElementToGraph g level key es)) = es.map some) := by
  cases hl : lookupKey key (record g level) with
  | some own =>
    have hval : validateElement g level key = true := by
      rw [validateElement, hl]
      rfl
    have h0 : addElementToGraph g level key es
        = es.foldl (fun acc e => addOneElement acc level key e) g := by
      simp only [addElementToGraph, hval, if_true]
    rw [h0]
    obtain ⟨hinv, _, _, hreco2, hold, hle, hmem⟩ := addFold_spec es g hg level key own hl
    refine ⟨hinv, hreco2, hold, hle, hmem, ?_⟩
    intro hn
    exact Option.noConfusion hn
  | none =>
    have hval : validateElement g level key = false := by
      rw [validateElement, hl]
      rfl
    have h0 : addElementToGraph g level key es
        = es.foldl (fun acc e => addOneElement acc level key e)
            (addLevelKey g level key) := by
      simp only [addElementToGraph, hval, Bool.false_eq_true, if_false]
    rw [h0]
    obtain ⟨hinv0, hnodes0, hreco0, ⟨own0, hlook0, hcase0⟩, hne0⟩ :=
      addLevelKey_spec g hg level key
    have hown0 : own0 = ⟨[]⟩ := by
      rcases hcase0 with h | ⟨_, h⟩
      · rw [hl] at h
        exact Option.noConfusion h
      · exact h
    subst hown0
    obtain ⟨hinv, ⟨tos, hlook, htos⟩, hne, hreco2, hold, hle, hmem⟩ :=
      addFold_spec es (addLevelKey g level key) hinv0 level key ⟨[]⟩ hlook0
    have helems0 : elems (addLevelKey g level key) = elems g := by
      rw [elems, elems, hnodes0]
    have helemj0 : ∀ j, elem? (addLevelKey g level key) j = elem? g j := by
      intro j
      rw [elem?, elem?, hnodes0]
    have hlen0 : (addLevelKey g level key).nodes.length = g.nodes.length := by
      rw [hnodes0]
    refine ⟨hinv, ?_, ?_, ?_, ?_, ?_⟩
    · intro lvl2 h2
      rw [hreco2 lvl2 h2, hreco0 lvl2 h2]
    · intro j hj
      rw [hold j (by rw [hlen0]; exact hj), helemj0 j]
    · rw [← hlen0]
      exact hle
    · intro hall
      rw [hmem (fun x hx => by rw [helems0]; exact hall x hx), helems0]
    · intro _
      exact ⟨tos, by simpa using hlook, htos⟩


theorem addKeyFold_spec [DecidableEq T] (level : Level) (e : T) :
    ∀ (ks : List String) (g : Graph T), Inv g →
      Inv (ks.foldl (fun acc k => if k = "" then acc
        else addElementToGraph (addLevelKey acc level k) level k [e]) g) ∧
      (e ∈ elems g →
        elems (ks.foldl (fun acc k => if k = "" then acc
          else addElementToGraph (addLevelKey acc level k) level k [e]) g)
          = elems g) := by
  intro ks
  induction ks with
  | nil => intro g hg; exact ⟨hg, fun _ => rfl⟩
  | cons k rest ih =>
    intro g hg
    simp only [List.foldl_cons]
    by_cases hk : k = ""
    · rw [if_pos hk]
      exact ih g hg
    · rw [if_neg hk]
      obtain ⟨hinv0, hnodes0, _, _, _⟩ := addLevelKey_spec g hg level k
      obtain ⟨hinv1, _, _, _, hmem1, _⟩ :=
        addElementToGraph_spec (addLevelKey g level k) hinv0 level k [e]
      obtain ⟨hinvG, hmemG⟩ :=
        ih (addElementToGraph (addLevelKey g level k) level k [e]) hinv1
      refine ⟨hinvG, ?_⟩
      intro he
      have h0 : elems (addLevelKey g level k) = elems g := by
        rw [elems, elems, hnodes0]
      have h1 : elems (addElementToGraph (addLevelKey g level k) level k [e])
          = elems g := by
        rw [hmem1 (fun x hx => by
            rw [h0]
            rw [List.mem_singleton.mp hx]
            exact he), h0]
      rw [hmemG (by rw [h1]; exact he), h1]

theorem add_spec [DecidableEq T] (g : Graph T) (hg : Inv g)
    (o : AddElementOptions T) :
    Inv (add g o) ∧ (o.element ∈ elems g → elems (add g o) = elems g) := by
  have h1 := addKeyFold_spec .top o.element o.top g hg
  have h2 := addKeyFold_spec .bottom o.element o.bottom
    (o.top.foldl (fun acc k => if k = "" then acc
      else addElementToGraph (addLevelKey acc .top k) .top k [o.element]) g) h1.1
  constructor
  · exact h2.1
  · intro he
    have e1 := h1.2 he
    have e2 := h2.2 (by rw [e1]; exact he)
    exact e2.trans e1

theorem inv_applyOp [DecidableEq T] (g : Graph T) (hg : Inv g) (op : Op T) :
    Inv (applyOp g op) := by
  cases op with
  | addTopKey k => exact (addLevelKey_spec g hg .top k).1
  | addBottomKey k => exact (addLevelKey_spec g hg .bottom k).1
  | addElemTop k es => exact (addElementToGraph_spec g hg .top k es).1
  | addElemBottom k es => exact (addElementToGraph_spec g hg .bottom k es).1
  | addOpt o => exact (add_spec g hg o).1

theorem inv_foldl_applyOp [DecidableEq T] :
    ∀ (ops : List (Op T)) (g : Graph T), Inv g → Inv (ops.foldl applyOp g) := by
  intro ops
  induction ops with
  | nil => intro g hg; exact hg
  | cons op rest ih => intro g hg; exact ih (applyOp g op) (inv_applyOp g hg op)

theorem inv_build [DecidableEq T] (ops : List (Op T)) : Inv (build ops) :=
  inv_foldl_applyOp ops emptyGraph inv_empty

theorem inv_reachable [DecidableEq T] (g : Graph T) (h : Reachable g) : Inv g := by
  obtain ⟨ops, hops⟩ := h
  rw [hops]
  exact inv_build ops

theorem pmBottomFold_spec :
    ∀ (mods : List Module) (g : Graph Module), Inv g →
      Inv (mods.foldl (fun acc m => addElementBottom acc m.name [m]) g) ∧
      record (mods.foldl (fun acc m => addElementBottom acc m.name [m]) g) .top
        = record g .top ∧
      (∀ j, j < g.nodes.length →
        elem? (mods.foldl (fun acc m => addElementBottom acc m.name [m]) g) j
          = elem? g j) := by
  intro mods
  induction mods with
  | nil => intro g hg; exact ⟨hg, rfl, fun _ _ => rfl⟩
  | cons m rest ih =>
    intro g hg
    simp only [List.foldl_cons]
    obtain ⟨hinv1, hreco1, hold1, hle1, _, _⟩ :=
      addElementToGraph_spec g hg .bottom m.name [m]
    obtain ⟨hinvG, hrecG, holdG⟩ := ih (addElementBottom g m.name [m]) hinv1
    refine ⟨hinvG, ?_, ?_⟩
    · rw [hrecG]
      exact hreco1 .top (fun hc => Level.noConfusion hc)
    · intro j hj
      rw [holdG j (Nat.lt_of_lt_of_le hj hle1)]
      exact hold1 j hj


/-! ### Claim-level helper lemmas -/

theorem getAllLoop_stuck (g : Graph T) :
    ∀ (fuel : Nat) (acc : List (Option T)), getAllLoop g fuel none acc = none := by
  intro fuel
  induction fuel with
  | zero => intro acc; rfl
  | succ f ih => intro acc; exact ih (acc ++ [none])

theorem sibling_one_direction [DecidableEq T] (g : Graph T) (hinv : Inv g)
    (x k : String) (ownx ownk : OneWayNode) (i j : Nat)
    (hx : lookupKey x (record g .bottom) = some ownx)
    (hi : i ∈ ownx.toNodes) (hj : j ∈ ownx.toNodes)
    (hk : lookupKey k (record g .top) = some ownk) (hik : i ∈ ownk.toNodes) :
    ∃ es, getSiblings g .top k = some es ∧
      ∃ e ∈ es, e.data = elem? g i ∧ elem? g j ∈ e.siblings := by
  have hilt : i < g.nodes.length := hinv.edges_lt .bottom x ownx hx i hi
  obtain ⟨nd, hnd⟩ := lget_of_lt g.nodes i hilt
  have hxmem : x ∈ nodeKeys nd .bottom := hinv.recip1 .bottom x ownx hx i hi nd hnd
  refine ⟨ownk.toNodes.map (fun i2 => ⟨elem? g i2, siblingsOfNode g .top i2⟩),
    by simp only [getSiblings, hk, Option.map_some'], ?_⟩
  refine ⟨⟨elem? g i, siblingsOfNode g .top i⟩,
    List.mem_map.mpr ⟨i, hik, rfl⟩, rfl, ?_⟩
  show elem? g j ∈ siblingsOfNode g .top i
  simp only [siblingsOfNode, hnd, otherLevel]
  apply List.mem_map.mpr
  refine ⟨j, ?_, rfl⟩
  apply List.mem_flatten.mpr
  refine ⟨keyTo g .bottom x, List.mem_map.mpr ⟨x, hxmem, rfl⟩, ?_⟩
  simp only [keyTo, hx]
  exact hj

/-! ### The claims -/

/-- Claim C1: the spec says `getAll()` returns every distinct stored value
exactly once in first-insertion order.  The code's iterator reports
`done: !!next` on the already-advanced pointer (inverted flag), so on a graph
holding the two distinct values 1 and 2 (in that insertion order) `getAll()`
terminates immediately and returns the empty sequence instead of `[1, 2]` —
contradicting both the spec and the method's own doc comment
("Return all elements in graph in insertion order"). -/
theorem getAll_insertion_order_broken :
    getAll (build [Op.addOpt ⟨["k"], [], (1 : Nat)⟩, Op.addOpt ⟨["k"], [], 2⟩]) 10
      = some [] ∧
    elems (build [Op.addOpt ⟨["k"], [], (1 : Nat)⟩, Op.addOpt ⟨["k"], [], 2⟩])
      = [1, 2] := by
  constructor
  · rfl
  · rfl

/-- Claim C9: the spec says every operation completes in bounded time, in
particular the `getAll()` chain traversal on every graph, empty or non-empty.
Because the iterator's `done` flag is inverted, the loop never reports `done`
once `next` is null: on the empty graph and on any one-element graph
`getAll()` runs forever (for every fuel bound the loop has not terminated).
The recursive `find` does terminate (`findAux_complete`/`findAux_none`), but
the claim's universal statement fails on `getAll`. -/
theorem getAll_nonterminating_small_graphs :
    (∀ fuel : Nat, getAll (emptyGraph : Graph Nat) fuel = none) ∧
    (∀ fuel : Nat, getAll (build [Op.addOpt ⟨["k"], [], (1 : Nat)⟩]) fuel = none) := by
  constructor
  · intro fuel
    exact getAllLoop_stuck emptyGraph fuel []
  · intro fuel
    cases fuel with
    | zero => rfl
    | succ f => exact getAllLoop_stuck (build [Op.addOpt ⟨["k"], [], (1 : Nat)⟩]) f ([] ++ [some 1])

/-- Claim C2: a value occupies at most one element node (the stored values are
pairwise distinct), and associating an already-stored value again through
`add`, under any keys in either namespace, links the existing node: the
insertion chain's values are left exactly unchanged, so no node is created. -/
theorem insertion_dedup [DecidableEq T] (g : Graph T) (hg : Reachable g)
    (o : AddElementOptions T) (hmem : o.element ∈ elems g) :
    (elems g).Nodup ∧ elems (add g o) = elems g := by
  have hinv := inv_reachable g hg
  exact ⟨hinv.elems_nodup, (add_spec g hinv o).2 hmem⟩

/-- Witness for `insertion_dedup` at a concrete input. -/
theorem insertion_dedup_witness :
    (elems (build [Op.addOpt ⟨["k"], [], (5 : Nat)⟩])).Nodup ∧
    elems (add (build [Op.addOpt ⟨["k"], [], (5 : Nat)⟩]) ⟨["j"], ["b"], 5⟩)
      = elems (build [Op.addOpt ⟨["k"], [], (5 : Nat)⟩]) :=
  insertion_dedup (build [Op.addOpt ⟨["k"], [], (5 : Nat)⟩])
    ⟨[Op.addOpt ⟨["k"], [], (5 : Nat)⟩], rfl⟩ ⟨["j"], ["b"], 5⟩ (by decide)

/-- Claim C3: looking up a key never declared in the given namespace fails
(`getTop`/`getBottom` return `none`, modelling the error thrown when
`this.top[key]` is undefined).  The source methods contain no assignment, so
the lookup is embedded as a pure reader and cannot alter the graph: failure
leaves the graph unchanged by construction. -/
theorem unknown_key_lookup_fails (g : Graph T) (key : String) :
    (lookupKey key g.top = none → getTop g key = none) ∧
    (lookupKey key g.bottom = none → getBottom g key = none) := by
  constructor
  · intro h
    rw [getTop, h]
    rfl
  · intro h
    rw [getBottom, h]
    rfl

/-- Witness for `unknown_key_lookup_fails` at a concrete input. -/
theorem unknown_key_lookup_fails_witness :
    getTop (emptyGraph : Graph Nat) "nonexistent" = none ∧
    getBottom (emptyGraph : Graph Nat) "nonexistent" = none :=
  ⟨(unknown_key_lookup_fails emptyGraph "nonexistent").1 rfl,
    (unknown_key_lookup_fails emptyGraph "nonexistent").2 rfl⟩

/-- Counterexample to claim C4 as stated: after `add {top: "g", bottom: "x",
element: 1}`, querying `getSiblings({level: "bottom", key: "x"})` yields the
entry for value 1 whose sibling list is `[1]` — the queried element IS among
its own siblings, because the code flattens the opposite namespace's edge
lists without excluding the node itself. -/
theorem siblings_self_counterexample :
    getSiblings (build [Op.addOpt ⟨["g"], ["x"], (1 : Nat)⟩]) Level.bottom "x"
      = some [⟨some 1, [some 1]⟩] := by
  decide

/-- Claim C4 (amended): `getSiblings` returns, for each element referenced by
the key, ALL element values reachable through the opposite namespace's edges
on that node's key-index-entries, INCLUDING the queried element itself —
whenever the node is wired to at least one opposite-namespace key, its own
value appears in its own sibling list. -/
theorem siblings_include_self [DecidableEq T] (g : Graph T) (hg : Reachable g)
    (level : Level) (key : String) (own : OneWayNode) (i : Nat)
    (nd : TwoWayNode T) (k2 : String)
    (hlk : lookupKey key (record g level) = some own)
    (hi : i ∈ own.toNodes)
    (hnd : g.nodes.get? i = some nd)
    (hk2 : k2 ∈ nodeKeys nd (otherLevel level)) :
    ∃ es, getSiblings g level key = some es ∧
      ∃ e ∈ es, e.data = some nd.element ∧ some nd.element ∈ e.siblings := by
  have hinv := inv_reachable g hg
  refine ⟨own.toNodes.map (fun i2 => ⟨elem? g i2, siblingsOfNode g level i2⟩),
    by simp only [getSiblings, hlk, Option.map_some'], ?_⟩
  refine ⟨⟨elem? g i, siblingsOfNode g level i⟩,
    List.mem_map.mpr ⟨i, hi, rfl⟩, by rw [elem?, hnd]; rfl, ?_⟩
  show some nd.element ∈ siblingsOfNode g level i
  obtain ⟨own2, ho1, ho2⟩ := hinv.recip2 (otherLevel level) i nd hnd k2 hk2
  simp only [siblingsOfNode, hnd]
  apply List.mem_map.mpr
  refine ⟨i, ?_, by rw [elem?, hnd]; rfl⟩
  apply List.mem_flatten.mpr
  refine ⟨keyTo g (otherLevel level) k2, List.mem_map.mpr ⟨k2, hk2, rfl⟩, ?_⟩
  simp only [keyTo, ho1]
  exact ho2

/-- Witness for `siblings_include_self` at a concrete input. -/
theorem siblings_include_self_witness :
    ∃ es, getSiblings (build [Op.addOpt ⟨["g"], ["x"], (1 : Nat)⟩])
        Level.bottom "x" = some es ∧
      ∃ e ∈ es, e.data = some (1 : Nat) ∧ some (1 : Nat) ∈ e.siblings :=
  siblings_include_self (build [Op.addOpt ⟨["g"], ["x"], (1 : Nat)⟩])
    ⟨[Op.addOpt ⟨["g"], ["x"], (1 : Nat)⟩], rfl⟩ Level.bottom "x" ⟨[0]⟩ 0
    ⟨1, ["g"], ["x"], none, none⟩ "g" (by decide) (by decide) (by decide)
    (by decide)

/-- Claim C5: sibling symmetry.  If the nodes of values A (index `i`) and
B (index `j`) are both associated to the bottom key `x`, then wherever A's
sibling list is computed (a `getSiblings` query on a top key `kA` pointing to
A), B's value appears in it — and symmetrically B's sibling list contains A. -/
theorem sibling_symmetry [DecidableEq T] (g : Graph T) (hg : Reachable g)
    (x kA kB : String) (ownx ownA ownB : OneWayNode) (i j : Nat)
    (hx : lookupKey x (record g .bottom) = some ownx)
    (hi : i ∈ ownx.toNodes) (hj : j ∈ ownx.toNodes)
    (hA : lookupKey kA (record g .top) = some ownA) (hiA : i ∈ ownA.toNodes)
    (hB : lookupKey kB (record g .top) = some ownB) (hjB : j ∈ ownB.toNodes) :
    (∃ es, getSiblings g .top kA = some es ∧
      ∃ e ∈ es, e.data = elem? g i ∧ elem? g j ∈ e.siblings) ∧
    (∃ es, getSiblings g .top kB = some es ∧
      ∃ e ∈ es, e.data = elem? g j ∧ elem? g i ∈ e.siblings) := by
  have hinv := inv_reachable g hg
  exact ⟨sibling_one_direction g hinv x kA ownx ownA i j hx hi hj hA hiA,
    sibling_one_direction g hinv x kB ownx ownB j i hx hj hi hB hjB⟩

/-- Witness for `sibling_symmetry` at a concrete input. -/
theorem sibling_symmetry_witness :
    (∃ es, getSiblings (build [Op.addOpt ⟨["gA"], ["x"], (1 : Nat)⟩,
        Op.addOpt ⟨["gB"], ["x"], 2⟩]) .top "gA" = some es ∧
      ∃ e ∈ es, e.data = elem? (build [Op.addOpt ⟨["gA"], ["x"], (1 : Nat)⟩,
        Op.addOpt ⟨["gB"], ["x"], 2⟩]) 0 ∧
        elem? (build [Op.addOpt ⟨["gA"], ["x"], (1 : Nat)⟩,
          Op.addOpt ⟨["gB"], ["x"], 2⟩]) 1 ∈ e.siblings) ∧
    (∃ es, getSiblings (build [Op.addOpt ⟨["gA"], ["x"], (1 : Nat)⟩,
        Op.addOpt ⟨["gB"], ["x"], 2⟩]) .top "gB" = some es ∧
      ∃ e ∈ es, e.data = elem? (build [Op.addOpt ⟨["gA"], ["x"], (1 : Nat)⟩,
        Op.addOpt ⟨["gB"], ["x"], 2⟩]) 1 ∧
        elem? (build [Op.addOpt ⟨["gA"], ["x"], (1 : Nat)⟩,
          Op.addOpt ⟨["gB"], ["x"], 2⟩]) 0 ∈ e.siblings) :=
  sibling_symmetry (build [Op.addOpt ⟨["gA"], ["x"], (1 : Nat)⟩,
      Op.addOpt ⟨["gB"], ["x"], 2⟩])
    ⟨[Op.addOpt ⟨["gA"], ["x"], (1 : Nat)⟩, Op.addOpt ⟨["gB"], ["x"], 2⟩], rfl⟩
    "x" "gA" "gB" ⟨[0, 1]⟩ ⟨[0]⟩ ⟨[1]⟩ 0 1 (by decide) (by decide) (by decide)
    (by decide) (by decide) (by decide) (by decide)

/-- Counterexample to claim C6 as stated: `PackageManager.get` is
`return this.map.getTop(id)` — a plain array in association order, not a
name→element mapping.  With two distinct modules sharing the name "m", the
result contains BOTH under the same name, which no name-keyed mapping can
represent. -/
theorem pmGet_not_name_keyed_counterexample :
    pmGet (pmAdd emptyGraph "g1" [⟨"m", 0⟩, ⟨"m", 1⟩]) "g1"
      = some [some ⟨"m", 0⟩, some ⟨"m", 1⟩] ∧
    (⟨"m", 0⟩ : Module).name = (⟨"m", 1⟩ : Module).name ∧
    (⟨"m", 0⟩ : Module) ≠ (⟨"m", 1⟩ : Module) := by
  refine ⟨by decide, rfl, by decide⟩

/-- Claim C6 (amended): for every group created by `PackageManager.add` under
a fresh identifier, `PackageManager.get` with that identifier returns the
group's elements as a plain sequence, one entry per element in insertion
order (`mods.map some`), not keyed by name. -/
theorem pmGet_returns_sequence (g : Graph Module) (hg : Reachable g)
    (pid : String) (mods : List Module)
    (hfresh : lookupKey pid g.top = none) :
    pmGet (pmAdd g pid mods) pid = some (mods.map some) := by
  have hinv := inv_reachable g hg
  obtain ⟨hinv1, hreco1, hold1, hle1, _, hfreshc⟩ :=
    addElementToGraph_spec g hinv .top pid mods
  obtain ⟨tos, hlook1, htos1⟩ := hfreshc hfresh
  obtain ⟨hinvG, hrecG, holdG⟩ :=
    pmBottomFold_spec mods (addElementTop g pid mods) hinv1
  have hlookG : lookupKey pid (record (pmAdd g pid mods) .top) = some ⟨tos⟩ := by
    show lookupKey pid (record (mods.foldl (fun acc m => addElementBottom acc m.name [m])
      (addElementTop g pid mods)) .top) = some ⟨tos⟩
    rw [hrecG]
    exact hlook1
  have htosG : tos.map (elem? (pmAdd g pid mods)) = mods.map some := by
    rw [← htos1]
    apply map_congr_mem
    intro t ht
    have h1 : elem? (addElementTop g pid mods) t ∈ mods.map some := by
      rw [← htos1]
      exact List.mem_map_of_mem _ ht
    obtain ⟨m, _, hm⟩ := List.mem_map.mp h1
    have hlt : t < (addElementTop g pid mods).nodes.length :=
      elem?_some_lt _ t m hm.symm
    exact holdG t hlt
  show (lookupKey pid (pmAdd g pid mods).top).map
      (fun own => own.toNodes.map (elem? (pmAdd g pid mods))) = some (mods.map some)
  rw [show lookupKey pid (pmAdd g pid mods).top = some (⟨tos⟩ : OneWayNode) from hlookG]
  show some (tos.map (elem? (pmAdd g pid mods))) = some (mods.map some)
  rw [htosG]

/-- Witness for `pmGet_returns_sequence` at a concrete input. -/
theorem pmGet_returns_sequence_witness :
    pmGet (pmAdd emptyGraph "g1" [⟨"mover", 0⟩, ⟨"renderer", 1⟩]) "g1"
      = some ([(⟨"mover", 0⟩ : Module), ⟨"renderer", 1⟩].map some) :=
  pmGet_returns_sequence emptyGraph ⟨[], rfl⟩ "g1"
    [⟨"mover", 0⟩, ⟨"renderer", 1⟩] (by decide)

/-- Claim C7: the spec requires `removeGroup` to either fully remove the group
or fail with `UnsupportedOperationError`, never to return normally leaving the
associations intact.  The code's `remove(id)` body is `//TODO; return this`:
it returns normally and changes nothing — after removing "g1", the group's
top key still resolves to its module.  This contradicts the spec's minimum
requirement (the code itself marks the gap with TODO). -/
theorem pmRemove_is_noop :
    (∀ (g : Graph Module) (pid : String), pmRemove g pid = g) ∧
    pmGet (pmRemove (pmAdd emptyGraph "g1" [⟨"mover", 0⟩]) "g1") "g1"
      = some [some ⟨"mover", 0⟩] := by
  refine ⟨fun g pid => rfl, by decide⟩

/-- Claim C8: re-declaring a key already present in a namespace is a no-op:
`validateKey` reports it (optionally warning on the console) and `addTop`/
`addBottom` leave the whole graph — in particular the key's existing
`OneWayNode` and its `to` list — exactly unchanged, without aborting. -/
theorem redeclare_key_noop (g : Graph T) (key : String) :
    ((lookupKey key g.top).isSome = true → addTop g key = g) ∧
    ((lookupKey key g.bottom).isSome = true → addBottom g key = g) := by
  constructor
  · intro h
    obtain ⟨v, hv⟩ := Option.isSome_iff_exists.mp h
    have hval : validateKey g .top key = false := by
      rw [validateKey, show record g Level.top = g.top from rfl, hv]
      rfl
    rw [addTop, if_neg (by rw [hval]; exact Bool.false_ne_true)]
  · intro h
    obtain ⟨v, hv⟩ := Option.isSome_iff_exists.mp h
    have hval : validateKey g .bottom key = false := by
      rw [validateKey, show record g Level.bottom = g.bottom from rfl, hv]
      rfl
    rw [addBottom, if_neg (by rw [hval]; exact Bool.false_ne_true)]

/-- Witness for `redeclare_key_noop` at a concrete input. -/
theorem redeclare_key_noop_witness :
    addTop (build [Op.addTopKey "k", Op.addBottomKey "k"] : Graph Nat) "k"
        = build [Op.addTopKey "k", Op.addBottomKey "k"] ∧
    addBottom (build [Op.addTopKey "k", Op.addBottomKey "k"] : Graph Nat) "k"
        = build [Op.addTopKey "k", Op.addBottomKey "k"] :=
  ⟨(redeclare_key_noop (build [Op.addTopKey "k", Op.addBottomKey "k"]) "k").1
      (by decide),
    (redeclare_key_noop (build [Op.addTopKey "k", Op.addBottomKey "k"]) "k").2
      (by decide)⟩

theorem topFold_skip [DecidableEq T] (e : T) :
    ∀ (ks : List String) (g : Graph T), (∀ k ∈ ks, k = "") →
      ks.foldl (fun acc k => if k = "" then acc
        else addElementTop (addTop acc k) k [e]) g = g := by
  intro ks
  induction ks with
  | nil => intro g _; rfl
  | cons k rest ih =>
    intro g h
    simp only [List.foldl_cons, if_pos (h k (List.mem_cons_self k rest))]
    exact ih g (fun k2 hk2 => h k2 (List.mem_cons_of_mem k hk2))

theorem bottomFold_skip [DecidableEq T] (e : T) :
    ∀ (ks : List String) (g : Graph T), (∀ k ∈ ks, k = "") →
      ks.foldl (fun acc k => if k = "" then acc
        else addElementBottom (addBottom acc k) k [e]) g = g := by
  intro ks
  induction ks with
  | nil => intro g _; rfl
  | cons k rest ih =>
    intro g h
    simp only [List.foldl_cons, if_pos (h k (List.mem_cons_self k rest))]
    exact ih g (fun k2 hk2 => h k2 (List.mem_cons_of_mem k hk2))

/-- Claim C10: `Graph.add(options)` with only falsy keys (the empty string; an
absent `top`/`bottom` field is the empty list after `forceArray`) is a
complete no-op: the `key && ...` guard skips every key, so no element is
inserted, no key declared, and no edge recorded — the graph is unchanged. -/
theorem add_falsy_keys_noop [DecidableEq T] (g : Graph T)
    (o : AddElementOptions T) (htop : ∀ k ∈ o.top, k = "")
    (hbot : ∀ k ∈ o.bottom, k = "") :
    add g o = g := by
  show o.bottom.foldl (fun acc k => if k = "" then acc
      else addElementBottom (addBottom acc k) k [o.element])
    (o.top.foldl (fun acc k => if k = "" then acc
      else addElementTop (addTop acc k) k [o.element]) g) = g
  rw [topFold_skip o.element o.top g htop, bottomFold_skip o.element o.bottom g hbot]

/-- Witness for `add_falsy_keys_noop` at a concrete input. -/
theorem add_falsy_keys_noop_witness :
    add (build [Op.addOpt ⟨["k"], [], (1 : Nat)⟩]) ⟨[""], [""], 7⟩
      = build [Op.addOpt ⟨["k"], [], (1 : Nat)⟩] :=
  add_falsy_keys_noop (build [Op.addOpt ⟨["k"], [], (1 : Nat)⟩]) ⟨[""], [""], 7⟩
    (by decide) (by decide)

end ModP5
